import Mathlib

/-!
Verification of the gravwell/cloudarchive core against its specification.

The Go sources are shallowly embedded: machine `int64` values are modelled as
`Int` with explicit wrapping at 2^64 (two's complement), Go maps are modelled
as association lists with overwrite-on-insert semantics, and fallible
operations return `Option`/`Except` or carry an explicit error component.
Filesystem and network effects are abstracted into explicit environment
records whose fields give the outcome of each effectful call.
-/

namespace ShardUtil

/-- Constant `ShardSet = 0x1ffff` from `pkg/util/shard.go`. -/
def ShardSet : Int := 0x1ffff

/-- Constant `shardMaskBitCount = 17` from `pkg/util/shard.go`. -/
def shardMaskBitCount : Nat := 17

/-- Constant `shardQuant = ShardSet + 1` from `pkg/util/shard.go`. -/
def shardQuant : Int := ShardSet + 1

/-- Variable `shardMask = ^ShardSet` (Go bitwise complement on int64,
`^x = -x - 1`) from `pkg/util/shard.go`. -/
def shardMask : Int := -ShardSet - 1

/-- The unsigned 64-bit representative of an integer, as used to model Go
`int64` bit operations: reduce modulo 2^64 into `[0, 2^64)`. -/
def toU64 (x : Int) : Nat := (x % (2 ^ 64 : Int)).toNat

/-- Reinterpret an unsigned 64-bit value as a signed Go `int64`
(two's complement). -/
def wrap64 (x : Int) : Int := (x + 2 ^ 63) % 2 ^ 64 - 2 ^ 63

/-- Go `int64` bitwise AND, via the unsigned representatives. -/
def int64And (a b : Int) : Int := wrap64 (Nat.land (toU64 a) (toU64 b))

/-- `GetShardId` from `pkg/util/shard.go`: the shard id of a time is
`unixSeconds & shardMask` on `int64`.  The conversion
`entry.FromStandard(t).Sec` is represented by taking the unix seconds
directly as the argument. -/
def GetShardId (unixSec : Int) : Int := int64And unixSec shardMask

/-- `NextShardId` from `pkg/util/shard.go`:
`(curr & shardMask) + shardQuant` on `int64` (addition wraps). -/
def NextShardId (curr : Int) : Int := wrap64 (int64And curr shardMask + shardQuant)

/-- Scan of a reversed character list used to model Go `filepath.Ext`:
walk from the end of the string until a `'.'` or a `'/'`; on a dot the
extension is everything from that dot on.  Returns the reversed extension
(with the dot) and the reversed remainder. -/
def revExtSplit : List Char → Option (List Char × List Char)
  | [] => none
  | c :: rest =>
    if c = '.' then some ([c], rest)
    else if c = '/' then none
    else match revExtSplit rest with
      | some (e, r) => some (c :: e, r)
      | none => none

/-- `trimVersion` from `pkg/util/shard.go` (also duplicated in
`pkg/shardpacker/unpacker.go`): `strings.TrimSuffix(nm, filepath.Ext(nm))`.
Since `filepath.Ext nm` is by construction a suffix of `nm`, this removes
the final dotted extension when there is one. -/
def trimVersion (nm : String) : String :=
  match revExtSplit nm.data.reverse with
  | some (_, r) => String.mk r.reverse
  | none => nm

/-- Value of a single hexadecimal digit, as accepted by Go
`strconv.ParseInt(s, 16, 64)`. -/
def hexDigit (c : Char) : Option Nat :=
  if '0' ≤ c ∧ c ≤ '9' then some (c.toNat - '0'.toNat)
  else if 'a' ≤ c ∧ c ≤ 'f' then some (c.toNat - 'a'.toNat + 10)
  else if 'A' ≤ c ∧ c ≤ 'F' then some (c.toNat - 'A'.toNat + 10)
  else none

/-- `filepath.Ext` from the Go standard library, for the path shapes used
here: the suffix starting at the final dot of the final slash-separated
element, or the empty string when there is no such dot. -/
def fpExt (s : String) : String :=
  match revExtSplit s.data.reverse with
  | some (e, _) => String.mk e.reverse
  | none => ""

/-- Accumulate hexadecimal digits left to right. -/
def hexVal : List Char → Nat → Option Nat
  | [], acc => some acc
  | c :: rest, acc =>
    match hexDigit c with
    | some d => hexVal rest (acc * 16 + d)
    | none => none

/-- Model of Go `strconv.ParseInt(s, 16, 64)`: an optional sign followed by
at least one hex digit; any out-of-range result is an error (`none`), as is
any malformed input.  Both call sites in the repository treat a non-nil
error as "not a shard name". -/
def parseHexInt64 (s : String) : Option Int :=
  match s.data with
  | [] => none
  | c :: rest =>
    let signDigits : Bool × List Char :=
      if c = '-' then (true, rest)
      else if c = '+' then (false, rest) else (false, c :: rest)
    match signDigits.2 with
    | [] => none
    | ds =>
      match hexVal ds 0 with
      | none => none
      | some n =>
        if signDigits.1 then
          if n ≤ 2 ^ 63 then some (-(n : Int)) else none
        else
          if n < 2 ^ 63 then some (n : Int) else none

/-- `ShardNameToDateRange` from `pkg/util/shard.go`: trim the version
suffix, parse the rest as hex, and return the window
`(v << 17, NextShardId (v << 17))` in unix seconds (`int64` shifts and
adds wrap). -/
def ShardNameToDateRange (nm : String) : Option (Int × Int) :=
  match parseHexInt64 (trimVersion nm) with
  | none => none
  | some v => some (wrap64 (v * 2 ^ 17), NextShardId (wrap64 (v * 2 ^ 17)))

end ShardUtil

section ShardUtilLemmas

open ShardUtil

theorem toU64_lt (x : Int) : toU64 x < 2 ^ 64 := by
  unfold toU64
  have h : (0 : Int) < 2 ^ 64 := by positivity
  have := Int.emod_lt_of_pos x h
  omega

theorem toU64_nonneg_eq (x : Int) (h0 : 0 ≤ x) (h1 : x < 2 ^ 64) :
    (toU64 x : Int) = x := by
  unfold toU64
  rw [Int.emod_eq_of_lt h0 h1]
  exact Int.toNat_of_nonneg h0

theorem toU64_neg_eq (x : Int) (h0 : -2 ^ 64 ≤ x) (h1 : x < 0) :
    (toU64 x : Int) = x + 2 ^ 64 := by
  unfold toU64
  have hmod : x % 2 ^ 64 = x + 2 ^ 64 := by omega
  rw [hmod, Int.toNat_of_nonneg (by omega)]

theorem wrap64_eq_of_range (x : Int) (h0 : -2 ^ 63 ≤ x) (h1 : x < 2 ^ 63) :
    wrap64 x = x := by
  unfold wrap64
  have : (x + 2 ^ 63) % 2 ^ 64 = x + 2 ^ 63 := by
    apply Int.emod_eq_of_lt <;> omega
  omega

theorem wrap64_high (x : Int) (h0 : 2 ^ 63 ≤ x) (h1 : x < 2 ^ 64) :
    wrap64 x = x - 2 ^ 64 := by
  unfold wrap64
  have : (x + 2 ^ 63) % 2 ^ 64 = x - 2 ^ 63 := by omega
  omega

/-- ANDing an unsigned 64-bit value with the mask `2^64 - 2^17` clears the
low 17 bits, i.e. floor-aligns to a multiple of 2^17. -/
theorem land_mask_eq (n : Nat) (h : n < 2 ^ 64) :
    Nat.land n (2 ^ 64 - 2 ^ 17) = n / 2 ^ 17 * 2 ^ 17 := by
  apply Nat.eq_of_testBit_eq
  intro i
  have hand : Nat.land n (2 ^ 64 - 2 ^ 17) = n &&& (2 ^ 64 - 2 ^ 17) := rfl
  have hmask : (2 ^ 64 - 2 ^ 17 : Nat) = 2 ^ 17 * (2 ^ 47 - 1) := by norm_num
  have hdiv : n / 2 ^ 17 * 2 ^ 17 = 2 ^ 17 * (n >>> 17) := by
    rw [Nat.shiftRight_eq_div_pow]
    ring
  rw [hand, Nat.testBit_and, hmask, Nat.testBit_mul_pow_two, hdiv,
    Nat.testBit_mul_pow_two, Nat.testBit_shiftRight, Nat.testBit_two_pow_sub_one]
  rcases Nat.lt_or_ge i 17 with hi | hi
  · simp [Nat.not_le.mpr hi]
  · have h17 : 17 + (i - 17) = i := by omega
    rcases Nat.lt_or_ge i 64 with h64 | h64
    · simp [hi, h17, show i - 17 < 47 by omega]
    · have hn : n.testBit i = false :=
        Nat.testBit_lt_two_pow (lt_of_lt_of_le h (Nat.pow_le_pow_right (by norm_num) h64))
      simp [hi, h17, hn, show ¬(i - 17 < 47) by omega]

/-- On `int64` values, `x & shardMask` is `x - x % 2^17`
(floor alignment to the 2^17-second quantum, Euclidean remainder). -/
theorem int64And_mask (x : Int) (h0 : -2 ^ 63 ≤ x) (h1 : x < 2 ^ 63) :
    int64And x shardMask = x - x % 2 ^ 17 := by
  have hmask : toU64 shardMask = 2 ^ 64 - 2 ^ 17 := by decide
  unfold int64And
  rw [hmask, land_mask_eq (toU64 x) (toU64_lt x)]
  unfold wrap64 toU64
  omega

/-- `GetShardId` floor-aligns the unix seconds to the 2^17-second quantum. -/
theorem getShardId_floor (u : Int) (h0 : -2 ^ 63 ≤ u) (h1 : u < 2 ^ 63) :
    GetShardId u = u - u % 2 ^ 17 :=
  int64And_mask u h0 h1

/-- On an aligned in-range shard id, `NextShardId` is plain addition of the
quantum. -/
theorem nextShardId_aligned (s : Int) (h0 : -2 ^ 63 ≤ s) (h1 : s < 2 ^ 63 - 2 ^ 17)
    (ha : s % 2 ^ 17 = 0) : NextShardId s = s + 2 ^ 17 := by
  unfold NextShardId
  rw [int64And_mask s h0 (by omega), ha]
  have hq : shardQuant = 2 ^ 17 := by decide
  rw [hq]
  rw [show s - 0 + 2 ^ 17 = s + 2 ^ 17 by ring]
  exact wrap64_eq_of_range _ (by omega) (by omega)

end ShardUtilLemmas

/-- Claim C5 (amended): for every time `t` whose unix seconds `u` satisfy
`u < 2^63 - 2^17` (i.e. `t` is not in the final representable int64
quantum), `s = GetShardId t` satisfies `s ≤ u < NextShardId s` and
`NextShardId s = s + 2^17`; and for every name parsing as hex value `v`
with `0 ≤ v < 2^46 - 1` (so that the shifted window fits in int64),
`ShardNameToDateRange` returns exactly the window
`(v·2^17, v·2^17 + 2^17)`, the final dotted suffix of the name being
stripped before parsing.  Outside these ranges the int64 arithmetic wraps
(see the counterexample). -/
theorem shard_range_algebra (u v : Int) (name : String)
    (hu0 : -2 ^ 63 ≤ u) (hu1 : u < 2 ^ 63 - 2 ^ 17)
    (hp : ShardUtil.parseHexInt64 (ShardUtil.trimVersion name) = some v)
    (hv0 : 0 ≤ v) (hv1 : v < 2 ^ 46 - 1) :
    (ShardUtil.GetShardId u ≤ u ∧
      u < ShardUtil.NextShardId (ShardUtil.GetShardId u) ∧
      ShardUtil.NextShardId (ShardUtil.GetShardId u) = ShardUtil.GetShardId u + 2 ^ 17) ∧
    ShardUtil.ShardNameToDateRange name = some (v * 2 ^ 17, v * 2 ^ 17 + 2 ^ 17) := by
  have hmod0 : (0 : Int) ≤ u % 2 ^ 17 := Int.emod_nonneg u (by norm_num)
  have hmod1 : u % 2 ^ 17 < 2 ^ 17 := Int.emod_lt_of_pos u (by norm_num)
  have hs : ShardUtil.GetShardId u = u - u % 2 ^ 17 :=
    getShardId_floor u hu0 (by omega)
  have hsal : (u - u % 2 ^ 17) % 2 ^ 17 = 0 := by omega
  have hnext : ShardUtil.NextShardId (u - u % 2 ^ 17) = (u - u % 2 ^ 17) + 2 ^ 17 :=
    nextShardId_aligned _ (by omega) (by omega) hsal
  constructor
  · refine ⟨by omega, ?_, ?_⟩
    · rw [hs, hnext]
      omega
    · rw [hs, hnext]
  · unfold ShardUtil.ShardNameToDateRange
    rw [hp]
    show some (ShardUtil.wrap64 (v * 2 ^ 17),
      ShardUtil.NextShardId (ShardUtil.wrap64 (v * 2 ^ 17))) = _
    have hw : ShardUtil.wrap64 (v * 2 ^ 17) = v * 2 ^ 17 :=
      wrap64_eq_of_range _ (by nlinarith) (by nlinarith)
    rw [hw]
    have hal : (v * 2 ^ 17) % 2 ^ 17 = 0 := Int.mul_emod_left v _
    rw [nextShardId_aligned _ (by nlinarith) (by nlinarith) hal]

/-- Witness for `shard_range_algebra`: a concrete time and the concrete
shard name `"769f2"` (with collision suffix `"769f2.1"` exercising the
trimming). -/
theorem shard_range_algebra_witness :
    (ShardUtil.GetShardId 63702 ≤ 63702 ∧
      (63702 : Int) < ShardUtil.NextShardId (ShardUtil.GetShardId 63702) ∧
      ShardUtil.NextShardId (ShardUtil.GetShardId 63702) =
        ShardUtil.GetShardId 63702 + 2 ^ 17) ∧
    ShardUtil.ShardNameToDateRange "769f2.1" =
      some (0x769f2 * 2 ^ 17, 0x769f2 * 2 ^ 17 + 2 ^ 17) :=
  shard_range_algebra 63702 0x769f2 "769f2.1" (by norm_num) (by norm_num)
    (by decide) (by norm_num) (by norm_num)

/-- Counterexample to claim C5 as frozen: at the largest int64 time
`u = 2^63 - 1`, `NextShardId (GetShardId u)` wraps to `-2^63`, so
`u < NextShardId (GetShardId u)` fails; and for the parseable name
`"7fffffffffffffff"` (value `v = 2^63 - 1`) the returned window start is
the wrapped value `-2^17`, not `v·2^17`. -/
theorem shard_range_algebra_counterexample :
    (ShardUtil.GetShardId (2 ^ 63 - 1) = 2 ^ 63 - 2 ^ 17 ∧
      ShardUtil.NextShardId (ShardUtil.GetShardId (2 ^ 63 - 1)) = -(2 ^ 63) ∧
      ¬((2 ^ 63 - 1 : Int) < ShardUtil.NextShardId (ShardUtil.GetShardId (2 ^ 63 - 1)))) ∧
    (ShardUtil.parseHexInt64 (ShardUtil.trimVersion "7fffffffffffffff") =
        some (2 ^ 63 - 1) ∧
      ShardUtil.ShardNameToDateRange "7fffffffffffffff" = some (-(2 ^ 17), 0) ∧
      (-(2 ^ 17) : Int) ≠ (2 ^ 63 - 1) * 2 ^ 17) := by
  refine ⟨⟨by decide, by decide, by decide⟩, ⟨by decide, by decide, by decide⟩⟩

namespace Shardpacker

/-- Semantic shard-component types, `Ftype` constants from
`pkg/shardpacker/packer.go`. -/
inductive Ftype where
  | Store
  | Index
  | Verify
  | AccelFile
  | IndexAccelKeyFile
  | IndexAccelDataFile
  | TagsUpdate
  | WellTags
deriving DecidableEq

/-- `tagupdateFilename` constant. -/
def tagupdateFilename : String := "tagsupdate"

/-- `wellTagsFilename` constant. -/
def wellTagsFilename : String := "tags"

/-- `Ftype.Filename` from `pkg/shardpacker/packer.go` (the entry name used
inside the tar stream).  The fall-through `default` branch cannot be
reached for the enumerated constructors, so no empty-string case arises. -/
def Ftype.Filename (ft : Ftype) (id : String) : String :=
  match ft with
  | .TagsUpdate => tagupdateFilename
  | .WellTags => wellTagsFilename
  | .Store => id ++ ".store"
  | .Index => id ++ ".index"
  | .Verify => id ++ ".verify"
  | .AccelFile => id ++ ".accel"
  | .IndexAccelKeyFile => "keys"
  | .IndexAccelDataFile => "data"

/-- `Ftype.Filepath` from `pkg/shardpacker/packer.go` (the on-disk
placement relative to the shard directory).  `filepath.Join` on these
already-clean components is concatenation with a slash. -/
def Ftype.Filepath (ft : Ftype) (id : String) : String :=
  match ft with
  | .TagsUpdate => tagupdateFilename
  | .WellTags => wellTagsFilename
  | .Store => id ++ ".store"
  | .Index => id ++ ".index"
  | .Verify => id ++ ".verify"
  | .AccelFile => id ++ ".accel"
  | .IndexAccelKeyFile => Ftype.Filename .AccelFile id ++ "/" ++ "keys"
  | .IndexAccelDataFile => Ftype.Filename .AccelFile id ++ "/" ++ "data"

/-- `FilenameToType` from `pkg/shardpacker/packer.go`: map a tar entry name
back to its semantic type, by literal name for `keys`, `data`,
`tagsupdate` and `tags`, and by file extension otherwise. -/
def FilenameToType (name : String) : Except String Ftype :=
  if name = "keys" then .ok .IndexAccelKeyFile
  else if name = "data" then .ok .IndexAccelDataFile
  else if name = tagupdateFilename then .ok .TagsUpdate
  else if name = wellTagsFilename then .ok .WellTags
  else
    let ext := ShardUtil.fpExt name
    if ext = ".store" then .ok .Store
    else if ext = ".index" then .ok .Index
    else if ext = ".verify" then .ok .Verify
    else if ext = ".accel" then .ok .AccelFile
    else .error "invalid file type"

/-- The `ftracker` component-hit record from `pkg/shardpacker/packer.go`. -/
structure Ftracker where
  storeHit : Bool
  indexHit : Bool
  verifyHit : Bool
  accelHit : Bool
  accelKeyHit : Bool
  accelDataHit : Bool
  wellTagsHit : Bool
  tagsUpdateHit : Bool
deriving DecidableEq

/-- The zero-valued `ftracker` a fresh packer/unpacker starts with. -/
def initTracker : Ftracker :=
  ⟨false, false, false, false, false, false, false, false⟩

/-- `ftracker.hitType` from `pkg/shardpacker/packer.go`: mark a component
as seen, reporting an error when it (or a conflicting accelerator form)
was already seen.  As in the Go code the bit is set even on the error
path; every caller stops on the error. -/
def hitType (t : Ftracker) (tp : Ftype) : Ftracker × Option String :=
  match tp with
  | .Store =>
    ({ t with storeHit := true },
      if t.storeHit then some "Store file already added" else none)
  | .Index =>
    ({ t with indexHit := true },
      if t.indexHit then some "Index file already added" else none)
  | .Verify =>
    ({ t with verifyHit := true },
      if t.verifyHit then some "Verify file already added" else none)
  | .AccelFile =>
    ({ t with accelHit := true },
      if t.accelHit || t.accelKeyHit || t.accelDataHit then
        some "Accelerator file already added" else none)
  | .IndexAccelKeyFile =>
    ({ t with accelKeyHit := true },
      if t.accelHit || t.accelKeyHit then
        some "Accelerator already added" else none)
  | .IndexAccelDataFile =>
    ({ t with accelDataHit := true },
      if t.accelHit || t.accelDataHit then
        some "Accelerator already added" else none)
  | .TagsUpdate =>
    ({ t with tagsUpdateHit := true },
      if t.tagsUpdateHit then some "Tags update already added" else none)
  | .WellTags =>
    ({ t with wellTagsHit := true },
      if t.wellTagsHit then some "Well tags already added" else none)

/-- `ftracker.allFilesHit` from `pkg/shardpacker/packer.go`: the
completeness check.  With `strict = false` only the store file is
unconditionally required, but a lone indexed-accelerator component still
fails. -/
def allFilesHit (t : Ftracker) (strict : Bool) : Option String :=
  if !t.storeHit then some "store file missing"
  else if !t.tagsUpdateHit && strict then some "tags update file missing"
  else if !t.wellTagsHit && strict then some "well tags file missing"
  else if !t.indexHit && strict then some "index file missing"
  else if !t.verifyHit && strict then some "verify file missing"
  else if t.accelKeyHit || t.accelDataHit then
    if !t.accelKeyHit then some "indexed accelerator key file missing"
    else if !t.accelDataHit then some "indexed accelerator data file missing"
    else none
  else none

/-- One tar entry of the incoming stream, reduced to what the unpack loop
inspects: its header name and whether it is a regular file.  Entry bodies
are consumed by the handler, which the claims under consideration assume
succeeds. -/
structure TarEntry where
  name : String
  isReg : Bool
deriving DecidableEq

/-- `NewUnpacker` from `pkg/shardpacker/unpacker.go` stores
`id = trimVersion(id)`; this is the id every `HandleFile` path is derived
from. -/
def unpackerId (id : String) : String := ShardUtil.trimVersion id

/-- The on-disk path handed to `HandleFile` for a component, from the
`Unpack` loop: `ft.Filepath(up.id)`. -/
def handleFilePath (id : String) (ft : Ftype) : String :=
  Ftype.Filepath ft (unpackerId id)

/-- One iteration of the `Unpacker.Unpack` entry loop from
`pkg/shardpacker/unpacker.go`: non-regular entries abort; `tagsupdate`
entries are decoded and dispatched, then marked; all others are mapped by
`FilenameToType`, marked, and dispatched to `HandleFile` (modelled as
succeeding). -/
def consumeEntry (t : Ftracker) (e : TarEntry) : Except String Ftracker :=
  if e.isReg = false then .error "invalid file type"
  else if e.name = tagupdateFilename then
    match hitType t .TagsUpdate with
    | (t', none) => .ok t'
    | (_, some m) => .error m
  else
    match FilenameToType e.name with
    | .error m => .error m
    | .ok ft =>
      match hitType t ft with
      | (t', none) => .ok t'
      | (_, some m) => .error m

/-- The full `Unpack` entry loop over a list of tar entries. -/
def consumeEntries : Ftracker → List TarEntry → Except String Ftracker
  | t, [] => .ok t
  | t, e :: rest =>
    match consumeEntry t e with
    | .ok t' => consumeEntries t' rest
    | .error m => .error m

/-- `Unpacker.Unpack` from `pkg/shardpacker/unpacker.go`, at the level of
the tar entry sequence: consume every entry, then run the completeness
check in lenient (`strict = false`) mode. -/
def Unpack (entries : List TarEntry) : Except String Ftracker :=
  match consumeEntries initTracker entries with
  | .error m => .error m
  | .ok t =>
    match allFilesHit t false with
    | none => .ok t
    | some m => .error m

end Shardpacker

/-- Characterization of the lenient completeness check: it passes exactly
when the store component was seen and the indexed-accelerator components
were seen either both or not at all. -/
theorem allFilesHit_lenient (t : Shardpacker.Ftracker) :
    Shardpacker.allFilesHit t false = none ↔
      (t.storeHit = true ∧
        ((t.accelKeyHit || t.accelDataHit) = true →
          t.accelKeyHit = true ∧ t.accelDataHit = true)) := by
  obtain ⟨s, i, ve, a, ak, ad, w, tu⟩ := t
  cases s <;> cases ak <;> cases ad <;> simp [Shardpacker.allFilesHit]

/-- Claim C2 (amended): for every stream whose tar entries are all consumed
without error by `Unpack`, the final completeness check is lenient — the
store component is required, and additionally, if exactly one of the
indexed-accelerator components (`keys`/`data`) was seen the check fails;
no other component is required at unpack time.  An unpack of a stream
missing `store` fails. -/
theorem unpack_lenient_completeness (entries : List Shardpacker.TarEntry)
    (t : Shardpacker.Ftracker)
    (h : Shardpacker.consumeEntries Shardpacker.initTracker entries = .ok t) :
    Shardpacker.Unpack entries = .ok t ↔
      (t.storeHit = true ∧
        ((t.accelKeyHit || t.accelDataHit) = true →
          t.accelKeyHit = true ∧ t.accelDataHit = true)) := by
  unfold Shardpacker.Unpack
  rw [h]
  show (match Shardpacker.allFilesHit t false with
    | none => Except.ok t
    | some m => Except.error m) = Except.ok t ↔ _
  rcases hall : Shardpacker.allFilesHit t false with _ | m
  · exact ⟨fun _ => (allFilesHit_lenient t).mp hall, fun _ => rfl⟩
  · constructor
    · intro he
      simp at he
    · intro hp
      have hnone := (allFilesHit_lenient t).mpr hp
      rw [hnone] at hall
      exact Option.noConfusion hall

/-- Witness for `unpack_lenient_completeness`: a stream carrying only the
store entry unpacks successfully. -/
theorem unpack_lenient_completeness_witness :
    Shardpacker.Unpack [⟨"769f2.store", true⟩] =
      .ok ⟨true, false, false, false, false, false, false, false⟩ :=
  (unpack_lenient_completeness [⟨"769f2.store", true⟩]
    ⟨true, false, false, false, false, false, false, false⟩ rfl).mpr (by decide)

/-- Counterexample to claim C2 as frozen: the stream
`[769f2.store, keys]` is consumed entirely without error and contains a
store entry, yet `Unpack` fails — the lenient check also requires the
indexed-accelerator `data` component once `keys` was seen, so a component
other than `store` is required at unpack time. -/
theorem unpack_lenient_completeness_counterexample :
    Shardpacker.consumeEntries Shardpacker.initTracker
        [⟨"769f2.store", true⟩, ⟨"keys", true⟩] =
      .ok ⟨true, false, false, false, true, false, false, false⟩ ∧
    Shardpacker.Unpack [⟨"769f2.store", true⟩, ⟨"keys", true⟩] =
      .error "indexed accelerator data file missing" :=
  ⟨rfl, rfl⟩

/-- Scanning a reversed character list that reaches a dot after only
non-dot, non-slash characters finds exactly that dot as the extension
boundary. -/
theorem revExtSplit_append (l r : List Char) (h : ∀ c ∈ l, c ≠ '.' ∧ c ≠ '/') :
    ShardUtil.revExtSplit (l ++ '.' :: r) = some (l ++ ['.'], r) := by
  induction l with
  | nil => simp [ShardUtil.revExtSplit]
  | cons c cs ih =>
    have hc := h c (by simp)
    have hcs : ∀ x ∈ cs, x ≠ '.' ∧ x ≠ '/' := fun x hx => h x (by simp [hx])
    show (if c = '.' then some ([c], cs ++ '.' :: r)
      else if c = '/' then none
      else match ShardUtil.revExtSplit (cs ++ '.' :: r) with
        | some (e, rest) => some (c :: e, rest)
        | none => none) = some (c :: (cs ++ ['.']), r)
    rw [if_neg hc.1, if_neg hc.2, ih hcs]

/-- Trimming the version suffix of `<base>.<n>` recovers `<base>` whenever
the suffix `<n>` contains no dot and no slash. -/
theorem trimVersion_append (base n : String)
    (h : ∀ c ∈ n.data, c ≠ '.' ∧ c ≠ '/') :
    ShardUtil.trimVersion (base ++ "." ++ n) = base := by
  unfold ShardUtil.trimVersion
  have hdata : (base ++ "." ++ n).data = base.data ++ '.' :: n.data := by
    simp [String.data_append]
  have hrev : (base.data ++ '.' :: n.data).reverse =
      n.data.reverse ++ '.' :: base.data.reverse := by
    simp
  have hmem : ∀ c ∈ n.data.reverse, c ≠ '.' ∧ c ≠ '/' := by
    intro c hc
    exact h c (List.mem_reverse.mp hc)
  rw [hdata, hrev, revExtSplit_append _ _ hmem]
  simp

/-- Claim C10: `NewUnpacker` strips the dotted collision suffix from the
shard id, so for a shard named `<base>.<n>` (suffix free of dots and
slashes) every path handed to `HandleFile` is derived from `<base>`
alone. -/
theorem unpacker_normalizes_suffixed_ids (base n : String)
    (ft : Shardpacker.Ftype) (h : ∀ c ∈ n.data, c ≠ '.' ∧ c ≠ '/') :
    Shardpacker.unpackerId (base ++ "." ++ n) = base ∧
    Shardpacker.handleFilePath (base ++ "." ++ n) ft =
      Shardpacker.Ftype.Filepath ft base := by
  have htrim := trimVersion_append base n h
  refine ⟨htrim, ?_⟩
  unfold Shardpacker.handleFilePath Shardpacker.unpackerId
  rw [htrim]

/-- Witness for `unpacker_normalizes_suffixed_ids`: the collision-suffixed
shard `769f2.1` materializes its indexed-accelerator key file at
`769f2.accel/keys`. -/
theorem unpacker_normalizes_suffixed_ids_witness :
    Shardpacker.unpackerId ("769f2" ++ "." ++ "1") = "769f2" ∧
    Shardpacker.handleFilePath ("769f2" ++ "." ++ "1") .IndexAccelKeyFile =
      Shardpacker.Ftype.Filepath .IndexAccelKeyFile "769f2" ∧
    Shardpacker.Ftype.Filepath .IndexAccelKeyFile "769f2" = "769f2.accel/keys" :=
  ⟨(unpacker_normalizes_suffixed_ids "769f2" "1" .IndexAccelKeyFile (by decide)).1,
    (unpacker_normalizes_suffixed_ids "769f2" "1" .IndexAccelKeyFile (by decide)).2,
    rfl⟩

namespace Tags

/-- `TagPair` from the tags package: a `Name` and a 16-bit id `Value`
(`entry.EntryTag`, modelled as `Nat`). -/
structure TagPair where
  Name : String
  Value : Nat
deriving DecidableEq

/-- Reserved tag name `entry.DefaultTagName` (external gravwell library;
the spec fixes the value). -/
def DefaultTagName : String := "default"

/-- Reserved tag id `entry.DefaultTagId`. -/
def DefaultTagId : Nat := 0

/-- Reserved tag name `entry.GravwellTagName`. -/
def GravwellTagName : String := "gravwell"

/-- Reserved tag id `entry.GravwellTagId`. -/
def GravwellTagId : Nat := 0xffff

/-- Lookup in the name→id Go map, modelled as an association list. -/
def lookupS : List (String × Nat) → String → Option Nat
  | [], _ => none
  | (k, v) :: rest, n => if k = n then some v else lookupS rest n

/-- Lookup in the id→name Go map. -/
def lookupK : List (Nat × String) → Nat → Option String
  | [], _ => none
  | (k, v) :: rest, i => if k = i then some v else lookupK rest i

/-- Remove every entry with the given key (supports overwrite-on-insert
Go map semantics). -/
def eraseS : List (String × Nat) → String → List (String × Nat)
  | [], _ => []
  | (k, v) :: rest, n => if k = n then eraseS rest n else (k, v) :: eraseS rest n

/-- Remove every entry with the given key. -/
def eraseK : List (Nat × String) → Nat → List (Nat × String)
  | [], _ => []
  | (k, v) :: rest, i => if k = i then eraseK rest i else (k, v) :: eraseK rest i

/-- Go map insert (overwrite) for the name→id map. -/
def insertS (m : List (String × Nat)) (n : String) (v : Nat) : List (String × Nat) :=
  (n, v) :: eraseS m n

/-- Go map insert (overwrite) for the id→name map. -/
def insertK (m : List (Nat × String)) (i : Nat) (nm : String) : List (Nat × String) :=
  (i, nm) :: eraseK m i

/-- The in-memory state of a `TagMan` instance.  `fileLines` records the
sequence of `name=value` lines present in the backing `tags.dat` (appends
and the `ResetOverride` rewrite); the file handle, flock and mutex are
not modelled.  The `nextTag` allocator field is omitted: it is consulted
only by `allocateTag` (`AddTag`/`GetAndPopulate`), which none of the
examined operations reach. -/
structure TagMan where
  tagKeys : List (Nat × String)
  tags : List (String × Nat)
  fileLines : List (String × Nat)
  active : Bool
deriving DecidableEq

/-- Modelled from the spec: `ingest.CheckTag` of the external gravwell
library validates a tag name — nonzero length, no whitespace, no `=`. -/
def CheckTag (name : String) : Bool :=
  !name.data.isEmpty && name.data.all (fun c => !c.isWhitespace && c != '=')

/-- Go `strings.TrimSpace`. -/
def trimSpace (s : String) : String :=
  String.mk (((s.data.dropWhile Char.isWhitespace).reverse.dropWhile
    Char.isWhitespace).reverse)

/-- `New` on an absent `tags.dat` (the fresh-file branch of `New`): the
file is created and seeded with the two reserved lines, and the maps are
seeded with the reserved pairs; the subsequent `loadTags` pass reads
nothing because the handle is positioned at end of file. -/
def freshTagMan : TagMan :=
  { tagKeys := insertK (insertK [] DefaultTagId DefaultTagName) GravwellTagId GravwellTagName
  , tags := insertS (insertS [] DefaultTagName DefaultTagId) GravwellTagName GravwellTagId
  , fileLines := [(DefaultTagName, DefaultTagId), (GravwellTagName, GravwellTagId)]
  , active := true }

/-- `GetTag` from the tags package. -/
def GetTag (tm : TagMan) (name : String) : Except String Nat :=
  if tm.active = false then .error "not active"
  else
    match lookupS tm.tags (trimSpace name) with
    | none => .error "not found"
    | some t => .ok t

/-- `assignTag` from the tags package: validate the name with `CheckTag`,
then add the exact pair to both maps and append the line to the file
(the seek and write are modelled as succeeding). -/
def assignTag (tm : TagMan) (name : String) (value : Nat) : Except String TagMan :=
  if CheckTag name = false then .error "invalid tag name"
  else .ok { tm with
    tagKeys := insertK tm.tagKeys value name
    tags := insertS tm.tags name value
    fileLines := tm.fileLines ++ [(name, value)] }

/-- The per-pair scan of `checkTagSet`: a pair naming a reserved tag must
carry the reserved id. -/
def pairBad (p : TagPair) : Option String :=
  if p.Name = DefaultTagName then
    if p.Value ≠ DefaultTagId then some "Invalid value for default tag" else none
  else if p.Name = GravwellTagName then
    if p.Value ≠ GravwellTagId then some "Invalid value for gravwell tag" else none
  else none

/-- `checkTagSet` from the tags package. -/
def checkTagSet (s : List TagPair) : Option String :=
  if s.length > 0xffff then some "Too many tags specified"
  else s.findSome? pairBad

/-- One iteration of the `Merge` loop: consult the id→name map and the
name→id map (the `hit` flag of the Go code), fail on any mismatch, and
assign the pair when neither side is present.  Returns the next state,
whether this pair was newly assigned, and the error if any. -/
def mergeStep (tm : TagMan) (p : TagPair) : (TagMan × Bool) × Option String :=
  match lookupK tm.tagKeys p.Value with
  | some cname =>
    if cname ≠ p.Name then
      ((tm, false), some (p.Name ++ " tag exists in current set and does not match provided set"))
    else
      match lookupS tm.tags p.Name with
      | some ctag =>
        if ctag ≠ p.Value then
          ((tm, false), some (p.Name ++ " tag name exists in current set and does not match"))
        else ((tm, false), none)
      | none => ((tm, false), none)
  | none =>
    match lookupS tm.tags p.Name with
    | some ctag =>
      if ctag ≠ p.Value then
        ((tm, false), some (p.Name ++ " tag name exists in current set and does not match"))
      else ((tm, false), none)
    | none =>
      match assignTag tm p.Name p.Value with
      | .ok tm' => ((tm', true), none)
      | .error e => ((tm, false), some e)

/-- The `Merge` loop over the incoming list, threading the `updated`
flag; an error stops the loop, keeping the pairs applied so far. -/
def mergeLoop : TagMan → Bool → List TagPair → TagMan × Bool × Option String
  | tm, upd, [] => (tm, upd, none)
  | tm, upd, p :: rest =>
    match mergeStep tm p with
    | ((tm', a), none) => mergeLoop tm' (upd || a) rest
    | ((tm', _), some e) => (tm', upd, some e)

/-- `Merge` from the tags package: `checkTagSet` runs first (before the
active check), then the pair loop. -/
def Merge (tm : TagMan) (s : List TagPair) : TagMan × Bool × Option String :=
  match checkTagSet s with
  | some e => (tm, false, some e)
  | none =>
    if tm.active = false then (tm, false, some "not active")
    else mergeLoop tm false s

/-- The rewrite loop of `ResetOverride`: entries carrying a reserved id
are skipped, all others are inserted and appended to the file. -/
def resetLoop : TagMan → List TagPair → TagMan
  | tm, [] => tm
  | tm, p :: rest =>
    if p.Value = DefaultTagId ∨ p.Value = GravwellTagId then resetLoop tm rest
    else
      resetLoop { tm with
        tags := insertS tm.tags p.Name p.Value
        tagKeys := insertK tm.tagKeys p.Value p.Name
        fileLines := tm.fileLines ++ [(p.Name, p.Value)] } rest

/-- `ResetOverride` from the tags package: validate the set, then truncate
the file, seed the maps and the file with the two reserved pairs, and run
the rewrite loop. -/
def ResetOverride (tm : TagMan) (s : List TagPair) : TagMan × Option String :=
  match checkTagSet s with
  | some e => (tm, some e)
  | none =>
    if tm.active = false then (tm, some "not active")
    else
      (resetLoop { tm with
        tagKeys := insertK (insertK [] DefaultTagId DefaultTagName) GravwellTagId GravwellTagName
        tags := insertS (insertS [] DefaultTagName DefaultTagId) GravwellTagName GravwellTagId
        fileLines := [(DefaultTagName, DefaultTagId), (GravwellTagName, GravwellTagId)] } s,
      none)

end Tags

namespace Tags

/-- Bool test matching the reserved-pair scan of `checkTagSet`, used by the
claim-side merge description. -/
def reservedMismatch (p : TagPair) : Bool :=
  (p.Name == DefaultTagName && p.Value != DefaultTagId) ||
  (p.Name == GravwellTagName && p.Value != GravwellTagId)

/-- Claim-side formulation (from the amended C1 text, for comparison with
`mergeStep`): every side of the incoming pair that is already present must
map exactly to the claimed counterpart. -/
def existingMatches (tm : TagMan) (p : TagPair) : Bool :=
  (match lookupK tm.tagKeys p.Value with
   | some nm => nm == p.Name
   | none => true) &&
  (match lookupS tm.tags p.Name with
   | some i => i == p.Value
   | none => true)

/-- Claim-side processing of one pair: if the name or the id is present,
succeed without mutation iff the existing mapping is exactly the incoming
pair; if neither is present, assign exactly the incoming pair provided the
name passes `CheckTag` validation.  `none` is failure. -/
def claimStep (tm : TagMan) (p : TagPair) : Option (TagMan × Bool) :=
  if (lookupK tm.tagKeys p.Value).isSome || (lookupS tm.tags p.Name).isSome then
    if existingMatches tm p then some (tm, false) else none
  else if CheckTag p.Name then
    some ({ tm with
      tagKeys := insertK tm.tagKeys p.Value p.Name
      tags := insertS tm.tags p.Name p.Value
      fileLines := tm.fileLines ++ [(p.Name, p.Value)] }, true)
  else none

/-- Claim-side loop: process the pairs in order, collecting the newly
assigned pairs; on failure the already-applied prefix remains and no
further pairs are applied.  The final `Bool` is success. -/
def claimLoop : TagMan → List TagPair → TagMan × List TagPair × Bool
  | tm, [] => (tm, [], true)
  | tm, p :: rest =>
    match claimStep tm p with
    | some (tm', isNew) =>
      let r := claimLoop tm' rest
      (r.1, if isNew then p :: r.2.1 else r.2.1, r.2.2)
    | none => (tm, [], false)

/-- Claim-side `Merge` (amended C1): reject oversized lists and reserved
mismatches upfront without applying any pair; otherwise run the pair loop,
reporting `updated` exactly when at least one new pair was assigned. -/
def mergeClaim (tm : TagMan) (s : List TagPair) : TagMan × Bool × Bool :=
  if decide (s.length > 0xffff) || s.any reservedMismatch then (tm, false, false)
  else
    let r := claimLoop tm s
    (r.1, decide (r.2.1 ≠ []), r.2.2)

end Tags

section TagsMergeLemmas

open Tags

theorem pairBad_isSome (p : TagPair) : (pairBad p).isSome = reservedMismatch p := by
  unfold pairBad reservedMismatch
  by_cases h1 : p.Name = DefaultTagName <;> by_cases h2 : p.Name = GravwellTagName <;>
    by_cases h3 : p.Value = DefaultTagId <;> by_cases h4 : p.Value = GravwellTagId <;>
    simp_all [DefaultTagName, GravwellTagName, DefaultTagId, GravwellTagId]

theorem findSome?_pairBad (s : List TagPair) :
    (s.findSome? pairBad).isSome = s.any reservedMismatch := by
  induction s with
  | nil => simp
  | cons p rest ih =>
    rw [List.findSome?_cons, List.any_cons]
    rcases hp : pairBad p with _ | e
    · have := pairBad_isSome p
      rw [hp] at this
      simp [← this, ih]
    · have := pairBad_isSome p
      rw [hp] at this
      simp [← this]

theorem checkTagSet_none_iff (s : List TagPair) :
    checkTagSet s = none ↔
      (decide (s.length > 0xffff) || s.any reservedMismatch) = false := by
  unfold checkTagSet
  by_cases hl : s.length > 0xffff
  · simp [hl]
  · rw [if_neg hl]
    rcases hf : s.findSome? pairBad with _ | e
    · simp [← findSome?_pairBad, hf, hl]
    · simp [← findSome?_pairBad, hf, hl]

theorem claimStep_eq (tm : TagMan) (p : TagPair) :
    claimStep tm p = (match mergeStep tm p with
      | ((tm', a), none) => some (tm', a)
      | (_, some _) => none) := by
  unfold claimStep mergeStep existingMatches assignTag
  rcases hk : lookupK tm.tagKeys p.Value with _ | cname
  · rcases hs : lookupS tm.tags p.Name with _ | ctag
    · by_cases hc : CheckTag p.Name <;> simp [hc]
    · by_cases he : ctag = p.Value <;> simp [he]
  · rcases hs : lookupS tm.tags p.Name with _ | ctag
    · by_cases he : cname = p.Name <;> simp [he]
    · by_cases he : cname = p.Name <;> by_cases he2 : ctag = p.Value <;>
        simp [he, he2]

theorem mergeStep_error (tm : TagMan) (p : TagPair) (tm' : TagMan) (a : Bool)
    (e : String) (h : mergeStep tm p = ((tm', a), some e)) :
    tm' = tm ∧ a = false := by
  unfold mergeStep assignTag at h
  rcases hk : lookupK tm.tagKeys p.Value with _ | cname <;> rw [hk] at h <;>
    rcases hs : lookupS tm.tags p.Name with _ | ctag <;> rw [hs] at h
  · by_cases hc : CheckTag p.Name <;> simp [hc] at h <;> simp [h]
  · by_cases he : ctag = p.Value <;> simp [he] at h <;> simp [h]
  · by_cases he : cname = p.Name <;> simp [he] at h <;> simp [h]
  · by_cases he : cname = p.Name <;> by_cases he2 : ctag = p.Value <;>
      simp [he, he2] at h <;> simp [h]

theorem mergeLoop_claimLoop (s : List TagPair) : ∀ (tm : TagMan) (upd : Bool),
    (mergeLoop tm upd s).1 = (claimLoop tm s).1 ∧
    (mergeLoop tm upd s).2.1 = (upd || decide ((claimLoop tm s).2.1 ≠ [])) ∧
    ((mergeLoop tm upd s).2.2 = none ↔ (claimLoop tm s).2.2 = true) := by
  induction s with
  | nil =>
    intro tm upd
    simp [mergeLoop, claimLoop]
  | cons p rest ih =>
    intro tm upd
    rcases hstep : mergeStep tm p with ⟨⟨tm', a⟩, e⟩
    have hcs := claimStep_eq tm p
    rw [hstep] at hcs
    cases e with
    | none =>
      have h1 : mergeLoop tm upd (p :: rest) = mergeLoop tm' (upd || a) rest := by
        simp [mergeLoop, hstep]
      have h2 : claimLoop tm (p :: rest) =
          ((claimLoop tm' rest).1,
            (if a then p :: (claimLoop tm' rest).2.1 else (claimLoop tm' rest).2.1),
            (claimLoop tm' rest).2.2) := by
        simp [claimLoop, hcs]
      rw [h1, h2]
      obtain ⟨ih1, ih2, ih3⟩ := ih tm' (upd || a)
      refine ⟨ih1, ?_, ih3⟩
      rw [ih2]
      cases a <;> cases upd <;> simp
    | some e' =>
      obtain ⟨htm, ha⟩ := mergeStep_error tm p tm' a e' hstep
      have h1 : mergeLoop tm upd (p :: rest) = (tm', upd, some e') := by
        simp [mergeLoop, hstep]
      have h2 : claimLoop tm (p :: rest) = (tm, [], false) := by
        simp [claimLoop, hcs]
      rw [h1, h2, htm]
      simp

end TagsMergeLemmas

/-- Claim C1 (amended): for every active tag manager state and incoming
list, `Merge` first validates the whole list (length at most 0xffff, and
any pair naming a reserved tag must carry the reserved id), failing before
any pair is applied; it then processes the pairs in order — if the name or
the id of a pair is present, it fails unless the existing mapping is
exactly that pair; if neither is present it assigns exactly that pair,
provided the name passes `CheckTag` validation (nonempty, no whitespace,
no `=`), else fails; the returned `updated` flag is true iff at least one
new pair was assigned; on a loop failure, pairs applied before the failing
pair remain assigned and no further pairs are applied.  Stated as
equivalence of `Merge` with the claim-side description `mergeClaim`
(success of one matches success of the other). -/
theorem tagman_merge_contract (tm : Tags.TagMan) (s : List Tags.TagPair)
    (ha : tm.active = true) :
    (Tags.Merge tm s).1 = (Tags.mergeClaim tm s).1 ∧
    (Tags.Merge tm s).2.1 = (Tags.mergeClaim tm s).2.1 ∧
    ((Tags.Merge tm s).2.2 = none ↔ (Tags.mergeClaim tm s).2.2 = true) := by
  unfold Tags.Merge Tags.mergeClaim
  rcases hck : Tags.checkTagSet s with _ | e
  · have hguard := (checkTagSet_none_iff s).mp hck
    rw [hguard]
    rw [ha]
    simp only [Bool.true_eq_false, if_false, Bool.false_eq_true]
    exact mergeLoop_claimLoop s tm false
  · have hguard : (decide (s.length > 0xffff) || s.any Tags.reservedMismatch) = true := by
      by_contra hne
      have := (checkTagSet_none_iff s).mpr (by
        cases hb : (decide (s.length > 0xffff) || s.any Tags.reservedMismatch)
        · rfl
        · exact absurd hb hne)
      rw [this] at hck
      exact Option.noConfusion hck
    rw [hguard]
    simp

/-- Witness for `tagman_merge_contract`: merging a fresh pair into the
freshly constructed manager. -/
theorem tagman_merge_contract_witness :
    (Tags.Merge Tags.freshTagMan [⟨"a", 5⟩]).1 =
      (Tags.mergeClaim Tags.freshTagMan [⟨"a", 5⟩]).1 ∧
    (Tags.Merge Tags.freshTagMan [⟨"a", 5⟩]).2.1 =
      (Tags.mergeClaim Tags.freshTagMan [⟨"a", 5⟩]).2.1 ∧
    ((Tags.Merge Tags.freshTagMan [⟨"a", 5⟩]).2.2 = none ↔
      (Tags.mergeClaim Tags.freshTagMan [⟨"a", 5⟩]).2.2 = true) :=
  tagman_merge_contract Tags.freshTagMan [⟨"a", 5⟩] rfl

/-- Counterexample to claim C1 as frozen, in three parts, all on the
fresh manager.  (1) Merging `[(fresh, 5), (default, 7)]` fails with
nothing assigned — per the claim the first pair, with neither its name
nor its id present, should have been assigned before the failure at the
second pair, but the upfront `checkTagSet` scan rejects the whole list
before any pair is applied.  (2) Merging `[("has space", 5)]` fails even
though neither the name nor the id is present — `CheckTag` rejects the
name. -/
theorem tagman_merge_contract_counterexample :
    (Tags.Merge Tags.freshTagMan [⟨"fresh", 5⟩, ⟨"default", 7⟩] =
      (Tags.freshTagMan, false, some "Invalid value for default tag") ∧
    Tags.lookupK Tags.freshTagMan.tagKeys 5 = none ∧
    Tags.lookupS Tags.freshTagMan.tags "fresh" = none ∧
    Tags.lookupS (Tags.Merge Tags.freshTagMan
      [⟨"fresh", 5⟩, ⟨"default", 7⟩]).1.tags "fresh" = none) ∧
    (Tags.lookupS Tags.freshTagMan.tags "has space" = none ∧
    Tags.Merge Tags.freshTagMan [⟨"has space", 5⟩] =
      (Tags.freshTagMan, false, some "invalid tag name")) :=
  ⟨⟨rfl, rfl, rfl, rfl⟩, rfl, rfl⟩

namespace Tags

/-- The bijection invariant every real `TagMan` state satisfies (enforced
by `loadTags` on open and preserved by every mutation): each entry of the
name→id map is mirrored in the id→name map and vice versa. -/
def Bij (tm : TagMan) : Prop :=
  (∀ pr ∈ tm.tags, lookupK tm.tagKeys pr.2 = some pr.1) ∧
  (∀ pr ∈ tm.tagKeys, lookupS tm.tags pr.2 = some pr.1)

instance (tm : TagMan) : Decidable (Bij tm) := by
  unfold Bij
  infer_instance

end Tags

section TagsMapLemmas

open Tags

theorem lookupS_eraseS_ne (m : List (String × Nat)) (n k : String) (h : k ≠ n) :
    lookupS (eraseS m n) k = lookupS m k := by
  induction m with
  | nil => rfl
  | cons pr rest ih =>
    obtain ⟨a, b⟩ := pr
    by_cases ha : a = n
    · rw [show eraseS ((a, b) :: rest) n = eraseS rest n by simp [eraseS, ha]]
      rw [ih]
      have : a ≠ k := by rw [ha]; exact fun hc => h hc.symm
      simp [lookupS, this]
    · rw [show eraseS ((a, b) :: rest) n = (a, b) :: eraseS rest n by simp [eraseS, ha]]
      by_cases hk : a = k
      · simp [lookupS, hk]
      · simp [lookupS, hk, ih]

theorem lookupK_eraseK_ne (m : List (Nat × String)) (n k : Nat) (h : k ≠ n) :
    lookupK (eraseK m n) k = lookupK m k := by
  induction m with
  | nil => rfl
  | cons pr rest ih =>
    obtain ⟨a, b⟩ := pr
    by_cases ha : a = n
    · rw [show eraseK ((a, b) :: rest) n = eraseK rest n by simp [eraseK, ha]]
      rw [ih]
      have : a ≠ k := by rw [ha]; exact fun hc => h hc.symm
      simp [lookupK, this]
    · rw [show eraseK ((a, b) :: rest) n = (a, b) :: eraseK rest n by simp [eraseK, ha]]
      by_cases hk : a = k
      · simp [lookupK, hk]
      · simp [lookupK, hk, ih]

theorem lookupS_insertS_self (m : List (String × Nat)) (n : String) (v : Nat) :
    lookupS (insertS m n v) n = some v := by
  simp [insertS, lookupS]

theorem lookupK_insertK_self (m : List (Nat × String)) (i : Nat) (nm : String) :
    lookupK (insertK m i nm) i = some nm := by
  simp [insertK, lookupK]

theorem lookupS_insertS_ne (m : List (String × Nat)) (n k : String) (v : Nat)
    (h : k ≠ n) : lookupS (insertS m n v) k = lookupS m k := by
  have hne : n ≠ k := fun hc => h hc.symm
  rw [insertS]
  show (if n = k then some v else lookupS (eraseS m n) k) = lookupS m k
  rw [if_neg hne]
  exact lookupS_eraseS_ne m n k h

theorem lookupK_insertK_ne (m : List (Nat × String)) (i k : Nat) (nm : String)
    (h : k ≠ i) : lookupK (insertK m i nm) k = lookupK m k := by
  have hne : i ≠ k := fun hc => h hc.symm
  rw [insertK]
  show (if i = k then some nm else lookupK (eraseK m i) k) = lookupK m k
  rw [if_neg hne]
  exact lookupK_eraseK_ne m i k h

theorem lookupS_mem (m : List (String × Nat)) (n : String) (v : Nat)
    (h : lookupS m n = some v) : (n, v) ∈ m := by
  induction m with
  | nil => exact absurd h (by simp [lookupS])
  | cons pr rest ih =>
    obtain ⟨a, b⟩ := pr
    by_cases ha : a = n
    · rw [lookupS, if_pos ha] at h
      subst ha
      simp_all
    · rw [lookupS, if_neg ha] at h
      simp [ih h]

theorem lookupK_mem (m : List (Nat × String)) (i : Nat) (nm : String)
    (h : lookupK m i = some nm) : (i, nm) ∈ m := by
  induction m with
  | nil => exact absurd h (by simp [lookupK])
  | cons pr rest ih =>
    obtain ⟨a, b⟩ := pr
    by_cases ha : a = i
    · rw [lookupK, if_pos ha] at h
      subst ha
      simp_all
    · rw [lookupK, if_neg ha] at h
      simp [ih h]

theorem eraseS_subset (m : List (String × Nat)) (n : String) (pr : String × Nat)
    (h : pr ∈ eraseS m n) : pr ∈ m := by
  induction m with
  | nil => exact absurd h (by simp [eraseS])
  | cons q rest ih =>
    obtain ⟨a, b⟩ := q
    by_cases ha : a = n
    · rw [show eraseS ((a, b) :: rest) n = eraseS rest n by simp [eraseS, ha]] at h
      simp [ih h]
    · rw [show eraseS ((a, b) :: rest) n = (a, b) :: eraseS rest n by
        simp [eraseS, ha]] at h
      rcases List.mem_cons.mp h with hh | hh
      · simp [hh]
      · simp [ih hh]

theorem eraseK_subset (m : List (Nat × String)) (i : Nat) (pr : Nat × String)
    (h : pr ∈ eraseK m i) : pr ∈ m := by
  induction m with
  | nil => exact absurd h (by simp [eraseK])
  | cons q rest ih =>
    obtain ⟨a, b⟩ := q
    by_cases ha : a = i
    · rw [show eraseK ((a, b) :: rest) i = eraseK rest i by simp [eraseK, ha]] at h
      simp [ih h]
    · rw [show eraseK ((a, b) :: rest) i = (a, b) :: eraseK rest i by
        simp [eraseK, ha]] at h
      rcases List.mem_cons.mp h with hh | hh
      · simp [hh]
      · simp [ih hh]

/-- Under the bijection invariant a name→id hit is mirrored id→name. -/
theorem bij_lookupK_of_lookupS (tm : TagMan) (hb : Bij tm) (n : String) (i : Nat)
    (h : lookupS tm.tags n = some i) : lookupK tm.tagKeys i = some n :=
  hb.1 (n, i) (lookupS_mem _ _ _ h)

/-- Under the bijection invariant an id→name hit is mirrored name→id. -/
theorem bij_lookupS_of_lookupK (tm : TagMan) (hb : Bij tm) (i : Nat) (nm : String)
    (h : lookupK tm.tagKeys i = some nm) : lookupS tm.tags nm = some i :=
  hb.2 (i, nm) (lookupK_mem _ _ _ h)

/-- Inserting a pair absent on both sides preserves the bijection
invariant. -/
theorem bij_insert (tm : TagMan) (hb : Bij tm) (n : String) (i : Nat)
    (hk : lookupK tm.tagKeys i = none) (hs : lookupS tm.tags n = none)
    (fl : List (String × Nat)) :
    Bij { tm with tagKeys := insertK tm.tagKeys i n,
                  tags := insertS tm.tags n i, fileLines := fl } := by
  constructor
  · intro pr hpr
    show lookupK (insertK tm.tagKeys i n) pr.2 = some pr.1
    have hpr' : pr ∈ (n, i) :: eraseS tm.tags n := hpr
    rcases List.mem_cons.mp hpr' with hh | hh
    · subst hh
      exact lookupK_insertK_self tm.tagKeys i n
    · have hmem := eraseS_subset tm.tags n pr hh
      have hold := hb.1 pr hmem
      have hne : pr.2 ≠ i := by
        intro hc
        rw [hc] at hold
        rw [hold] at hk
        exact Option.noConfusion hk
      rw [lookupK_insertK_ne tm.tagKeys i pr.2 n hne]
      exact hold
  · intro pr hpr
    show lookupS (insertS tm.tags n i) pr.2 = some pr.1
    have hpr' : pr ∈ (i, n) :: eraseK tm.tagKeys i := hpr
    rcases List.mem_cons.mp hpr' with hh | hh
    · subst hh
      exact lookupS_insertS_self tm.tags n i
    · have hmem := eraseK_subset tm.tagKeys i pr hh
      have hold := hb.2 pr hmem
      have hne : pr.2 ≠ n := by
        intro hc
        rw [hc] at hold
        rw [hold] at hs
        exact Option.noConfusion hs
      rw [lookupS_insertS_ne tm.tags n pr.2 i hne]
      exact hold

end TagsMapLemmas

section TagsIdempotenceLemmas

open Tags

/-- A successful `mergeStep` preserves the bijection invariant and the
activity flag, establishes the pair's mapping, and never removes an
existing name→id mapping. -/
theorem mergeStep_post (tm : TagMan) (p : TagPair) (tm' : TagMan) (a : Bool)
    (hb : Bij tm) (h : mergeStep tm p = ((tm', a), none)) :
    Bij tm' ∧ tm'.active = tm.active ∧ lookupS tm'.tags p.Name = some p.Value ∧
    (∀ n i, lookupS tm.tags n = some i → lookupS tm'.tags n = some i) := by
  rcases hk : lookupK tm.tagKeys p.Value with _ | cname <;>
    rcases hs : lookupS tm.tags p.Name with _ | ctag
  · by_cases hc : CheckTag p.Name
    · have hcomp : mergeStep tm p = (((⟨insertK tm.tagKeys p.Value p.Name,
          insertS tm.tags p.Name p.Value,
          tm.fileLines ++ [(p.Name, p.Value)], tm.active⟩ : TagMan), true), none) := by
        simp [mergeStep, assignTag, hk, hs, hc]
      rw [hcomp] at h
      replace h : ((⟨insertK tm.tagKeys p.Value p.Name,
          insertS tm.tags p.Name p.Value,
          tm.fileLines ++ [(p.Name, p.Value)], tm.active⟩ : TagMan), true)
          = (tm', a) := by injection h
      injection h with htm hA
      refine ⟨?_, ?_, ?_, ?_⟩
      · rw [← htm]
        exact bij_insert tm hb p.Name p.Value hk hs _
      · rw [← htm]
      · rw [← htm]
        exact lookupS_insertS_self tm.tags p.Name p.Value
      · intro n i hl
        have hne : n ≠ p.Name := fun hc2 => by
          rw [hc2, hs] at hl
          exact Option.noConfusion hl
        rw [← htm]
        show lookupS (insertS tm.tags p.Name p.Value) n = some i
        rw [lookupS_insertS_ne tm.tags p.Name n p.Value hne]
        exact hl
    · rw [Bool.not_eq_true] at hc
      have hcomp : mergeStep tm p = ((tm, false), some "invalid tag name") := by
        simp [mergeStep, assignTag, hk, hs, hc]
      rw [hcomp] at h
      simp at h
  · by_cases he : ctag = p.Value
    · have hcomp : mergeStep tm p = ((tm, false), none) := by
        simp [mergeStep, hk, hs, he]
      rw [hcomp] at h
      replace h : ((tm, false) : TagMan × Bool) = (tm', a) := by injection h
      injection h with htm hA
      refine ⟨htm ▸ hb, ?_, ?_, ?_⟩
      · rw [← htm]
      · rw [← htm]
        rw [hs, he]
      · intro n i hl
        rw [← htm]
        exact hl
    · have hcomp : mergeStep tm p =
          ((tm, false), some (p.Name ++ " tag name exists in current set and does not match")) := by
        simp [mergeStep, hk, hs, he]
      rw [hcomp] at h
      simp at h
  · by_cases he : cname = p.Name
    · exfalso
      have hlk : lookupK tm.tagKeys p.Value = some p.Name := by rw [hk, he]
      have hmir := bij_lookupS_of_lookupK tm hb p.Value p.Name hlk
      rw [hs] at hmir
      exact Option.noConfusion hmir
    · have hcomp : mergeStep tm p =
          ((tm, false), some (p.Name ++ " tag exists in current set and does not match provided set")) := by
        simp [mergeStep, hk, hs, he]
      rw [hcomp] at h
      simp at h
  · by_cases he : cname = p.Name
    · by_cases he2 : ctag = p.Value
      · have hcomp : mergeStep tm p = ((tm, false), none) := by
          simp [mergeStep, hk, hs, he, he2]
        rw [hcomp] at h
        replace h : ((tm, false) : TagMan × Bool) = (tm', a) := by injection h
        injection h with htm hA
        refine ⟨htm ▸ hb, ?_, ?_, ?_⟩
        · rw [← htm]
        · rw [← htm]
          rw [hs, he2]
        · intro n i hl
          rw [← htm]
          exact hl
      · have hcomp : mergeStep tm p =
            ((tm, false), some (p.Name ++ " tag name exists in current set and does not match")) := by
          simp [mergeStep, hk, hs, he, he2]
        rw [hcomp] at h
        simp at h
    · have hcomp : mergeStep tm p =
          ((tm, false), some (p.Name ++ " tag exists in current set and does not match provided set")) := by
        simp [mergeStep, hk, hs, he]
      rw [hcomp] at h
      simp at h


/-- A fully successful merge loop preserves the bijection invariant and
activity, keeps old mappings, and establishes every processed pair. -/
theorem mergeLoop_post (s : List TagPair) :
    ∀ (tm : TagMan) (upd : Bool) (tm1 : TagMan) (upd1 : Bool), Bij tm →
    mergeLoop tm upd s = (tm1, upd1, none) →
    Bij tm1 ∧ tm1.active = tm.active ∧
    (∀ n i, lookupS tm.tags n = some i → lookupS tm1.tags n = some i) ∧
    (∀ p ∈ s, lookupS tm1.tags p.Name = some p.Value) := by
  induction s with
  | nil =>
    intro tm upd tm1 upd1 hb h
    simp only [mergeLoop, Prod.mk.injEq] at h
    obtain ⟨h1, -, -⟩ := h
    subst h1
    exact ⟨hb, rfl, fun n i hl => hl, by simp⟩
  | cons p rest ih =>
    intro tm upd tm1 upd1 hb h
    rcases hstep : mergeStep tm p with ⟨⟨tm', a⟩, e⟩
    cases e with
    | some e' =>
      rw [show mergeLoop tm upd (p :: rest) = (tm', upd, some e') by
        simp [mergeLoop, hstep]] at h
      simp at h
    | none =>
      rw [show mergeLoop tm upd (p :: rest) = mergeLoop tm' (upd || a) rest by
        simp [mergeLoop, hstep]] at h
      obtain ⟨hbij', hact', hpost', hmono'⟩ := mergeStep_post tm p tm' a hb hstep
      obtain ⟨hb1, hact1, hmono1, hall1⟩ := ih tm' (upd || a) tm1 upd1 hbij' h
      refine ⟨hb1, hact1.trans hact', ?_, ?_⟩
      · intro n i hl
        exact hmono1 n i (hmono' n i hl)
      · intro q hq
        rcases List.mem_cons.mp hq with hh | hh
        · subst hh
          exact hmono1 q.Name q.Value hpost'
        · exact hall1 q hh

/-- A pair already mapped exactly is a no-op for `mergeStep` (under the
bijection invariant). -/
theorem mergeStep_of_present (tm : TagMan) (p : TagPair) (hb : Bij tm)
    (hp : lookupS tm.tags p.Name = some p.Value) :
    mergeStep tm p = ((tm, false), none) := by
  have hk := bij_lookupK_of_lookupS tm hb p.Name p.Value hp
  simp [mergeStep, hk, hp]

/-- When every pair of the list is already mapped exactly, the merge loop
leaves the state untouched and reports no update. -/
theorem mergeLoop_stable (s : List TagPair) : ∀ (tm : TagMan), Bij tm →
    (∀ p ∈ s, lookupS tm.tags p.Name = some p.Value) →
    mergeLoop tm false s = (tm, false, none) := by
  induction s with
  | nil => intro tm _ _; rfl
  | cons p rest ih =>
    intro tm hb hall
    have hstep := mergeStep_of_present tm p hb (hall p (by simp))
    rw [show mergeLoop tm false (p :: rest) = mergeLoop tm (false || false) rest by
      simp [mergeLoop, hstep]]
    exact ih tm hb (fun q hq => hall q (by simp [hq]))

end TagsIdempotenceLemmas

/-- Claim C8: merging the same list twice into an active (hence bijective)
tag manager state succeeds the second time as well, reports
`updated = false` on the second call, and leaves the tag set identical to
its value after the first call. -/
theorem tagman_merge_idempotent (tm : Tags.TagMan) (s : List Tags.TagPair)
    (tm1 : Tags.TagMan) (upd1 : Bool)
    (ha : tm.active = true) (hb : Tags.Bij tm)
    (h : Tags.Merge tm s = (tm1, upd1, none)) :
    Tags.Merge tm1 s = (tm1, false, none) := by
  unfold Tags.Merge at h ⊢
  rcases hck : Tags.checkTagSet s with _ | e
  · rw [hck] at h
    replace h : (if tm.active = false then (tm, false, some "not active")
        else Tags.mergeLoop tm false s) = (tm1, upd1, none) := h
    rw [ha] at h
    simp only [Bool.true_eq_false, if_false] at h
    obtain ⟨hb1, hact1, hmono1, hall1⟩ := mergeLoop_post s tm false tm1 upd1 hb h
    have hact : tm1.active = true := by rw [hact1, ha]
    show (if tm1.active = false then (tm1, false, some "not active")
        else Tags.mergeLoop tm1 false s) = (tm1, false, none)
    rw [hact]
    simp only [Bool.true_eq_false, if_false]
    exact mergeLoop_stable s tm1 hb1 hall1
  · rw [hck] at h
    replace h : ((tm, false, some e) : Tags.TagMan × Bool × Option String) =
        (tm1, upd1, none) := h
    simp at h

/-- Witness for `tagman_merge_idempotent`: merge `[(a, 5)]` into the fresh
manager, then merge it again. -/
theorem tagman_merge_idempotent_witness :
    Tags.Merge
      { tagKeys := [(5, "a"), (Tags.GravwellTagId, Tags.GravwellTagName),
          (Tags.DefaultTagId, Tags.DefaultTagName)]
      , tags := [("a", 5), (Tags.GravwellTagName, Tags.GravwellTagId),
          (Tags.DefaultTagName, Tags.DefaultTagId)]
      , fileLines := [(Tags.DefaultTagName, Tags.DefaultTagId),
          (Tags.GravwellTagName, Tags.GravwellTagId), ("a", 5)]
      , active := true } [⟨"a", 5⟩] =
    ({ tagKeys := [(5, "a"), (Tags.GravwellTagId, Tags.GravwellTagName),
          (Tags.DefaultTagId, Tags.DefaultTagName)]
      , tags := [("a", 5), (Tags.GravwellTagName, Tags.GravwellTagId),
          (Tags.DefaultTagName, Tags.DefaultTagId)]
      , fileLines := [(Tags.DefaultTagName, Tags.DefaultTagId),
          (Tags.GravwellTagName, Tags.GravwellTagId), ("a", 5)]
      , active := true }, false, none) :=
  tagman_merge_idempotent Tags.freshTagMan [⟨"a", 5⟩] _ true rfl (by decide) rfl

namespace Tags

/-- The reserved mappings are present exactly, on both sides — true of
every constructed `TagMan` state (`New` seeds or `loadTags` verifies them,
and every mutation preserves them). -/
def ReservedOk (tm : TagMan) : Prop :=
  lookupS tm.tags DefaultTagName = some DefaultTagId ∧
  lookupK tm.tagKeys DefaultTagId = some DefaultTagName ∧
  lookupS tm.tags GravwellTagName = some GravwellTagId ∧
  lookupK tm.tagKeys GravwellTagId = some GravwellTagName

instance (tm : TagMan) : Decidable (ReservedOk tm) := by
  unfold ReservedOk
  infer_instance

/-- A pair conflicting with a reserved mapping: a reserved name with the
wrong id, or a reserved id with the wrong name. -/
def ConflictsReserved (p : TagPair) : Prop :=
  (p.Name = DefaultTagName ∧ p.Value ≠ DefaultTagId) ∨
  (p.Name = GravwellTagName ∧ p.Value ≠ GravwellTagId) ∨
  (p.Value = DefaultTagId ∧ p.Name ≠ DefaultTagName) ∨
  (p.Value = GravwellTagId ∧ p.Name ≠ GravwellTagName)

instance (p : TagPair) : Decidable (ConflictsReserved p) := by
  unfold ConflictsReserved
  infer_instance

end Tags

section TagsReservedLemmas

open Tags

/-- The `ResetOverride` rewrite loop: preserves the activity flag, keeps
the reserved lookups intact (given a validated input set), and appends
exactly the kept entries to the file. -/
theorem resetLoop_facts (s : List TagPair) : ∀ (tm : TagMan),
    (∀ p ∈ s, pairBad p = none) →
    (resetLoop tm s).active = tm.active ∧
    (lookupS tm.tags DefaultTagName = some DefaultTagId →
      lookupS (resetLoop tm s).tags DefaultTagName = some DefaultTagId) ∧
    (lookupS tm.tags GravwellTagName = some GravwellTagId →
      lookupS (resetLoop tm s).tags GravwellTagName = some GravwellTagId) ∧
    (resetLoop tm s).fileLines = tm.fileLines ++
      (s.filter (fun q => !(q.Value == DefaultTagId || q.Value == GravwellTagId))).map
        (fun q => (q.Name, q.Value)) := by
  induction s with
  | nil =>
    intro tm _
    exact ⟨rfl, fun h => h, fun h => h, by simp [resetLoop]⟩
  | cons p rest ih =>
    intro tm hall
    have hp := hall p (by simp)
    have hrest : ∀ q ∈ rest, pairBad q = none := fun q hq => hall q (by simp [hq])
    by_cases hv : p.Value = DefaultTagId ∨ p.Value = GravwellTagId
    · rw [show resetLoop tm (p :: rest) = resetLoop tm rest by
        simp [resetLoop, hv]]
      obtain ⟨f1, f2, f3, f4⟩ := ih tm hrest
      refine ⟨f1, f2, f3, ?_⟩
      rw [f4]
      congr 1
      rw [show (p :: rest).filter
          (fun q => !(q.Value == DefaultTagId || q.Value == GravwellTagId)) =
          rest.filter (fun q => !(q.Value == DefaultTagId || q.Value == GravwellTagId)) by
        rcases hv with hv | hv <;> simp [List.filter_cons, hv]]
    · have hnd : p.Name ≠ DefaultTagName := by
        intro hc
        unfold pairBad at hp
        rw [if_pos hc] at hp
        have h0 : p.Value ≠ DefaultTagId := fun h0 => hv (Or.inl h0)
        rw [if_pos h0] at hp
        exact Option.noConfusion hp
      have hng : p.Name ≠ GravwellTagName := by
        intro hc
        unfold pairBad at hp
        have hcd : ¬(p.Name = DefaultTagName) := by
          rw [hc]
          decide
        rw [if_neg hcd, if_pos hc] at hp
        have h0 : p.Value ≠ GravwellTagId := fun h0 => hv (Or.inr h0)
        rw [if_pos h0] at hp
        exact Option.noConfusion hp
      have hstep : resetLoop tm (p :: rest) =
          resetLoop ⟨insertK tm.tagKeys p.Value p.Name,
            insertS tm.tags p.Name p.Value,
            tm.fileLines ++ [(p.Name, p.Value)], tm.active⟩ rest := by
        simp [resetLoop, hv]
      rw [hstep]
      obtain ⟨f1, f2, f3, f4⟩ := ih ⟨insertK tm.tagKeys p.Value p.Name,
        insertS tm.tags p.Name p.Value,
        tm.fileLines ++ [(p.Name, p.Value)], tm.active⟩ hrest
      refine ⟨f1, ?_, ?_, ?_⟩
      · intro hd
        apply f2
        show lookupS (insertS tm.tags p.Name p.Value) DefaultTagName = some DefaultTagId
        rw [lookupS_insertS_ne tm.tags p.Name DefaultTagName p.Value
          (fun hc => hnd hc.symm)]
        exact hd
      · intro hg
        apply f3
        show lookupS (insertS tm.tags p.Name p.Value) GravwellTagName = some GravwellTagId
        rw [lookupS_insertS_ne tm.tags p.Name GravwellTagName p.Value
          (fun hc => hng hc.symm)]
        exact hg
      · rw [f4]
        show (tm.fileLines ++ [(p.Name, p.Value)]) ++ _ = _
        rw [show (p :: rest).filter
            (fun q => !(q.Value == DefaultTagId || q.Value == GravwellTagId)) =
            p :: rest.filter
              (fun q => !(q.Value == DefaultTagId || q.Value == GravwellTagId)) by
          simp only [List.filter_cons]
          rw [if_pos]
          simp only [Bool.not_eq_true']
          rw [Bool.or_eq_false_iff]
          constructor <;> rw [beq_eq_false_iff_ne] <;> intro hc <;>
            exact hv (by simp [hc])]
        simp

end TagsReservedLemmas

section TagsConflictLemmas

open Tags

/-- Merging a single pair that conflicts with a reserved mapping fails
without mutating the tag set: reserved names with wrong ids are rejected
by `checkTagSet` upfront, reserved ids with wrong names by the id→name
check of the merge loop. -/
theorem merge_conflict (tm : TagMan) (p : TagPair) (ha : tm.active = true)
    (hres : ReservedOk tm) (hcon : ConflictsReserved p) :
    (Merge tm [p]).1 = tm ∧ (Merge tm [p]).2.1 = false ∧
    (Merge tm [p]).2.2 ≠ none := by
  obtain ⟨hd1, hd2, hg1, hg2⟩ := hres
  rcases hcon with ⟨hn, hv⟩ | ⟨hn, hv⟩ | ⟨hv, hn⟩ | ⟨hv, hn⟩
  · have hck : checkTagSet [p] = some "Invalid value for default tag" := by
      unfold checkTagSet
      rw [if_neg (by simp)]
      simp [List.findSome?, pairBad, hn, hv]
    refine ⟨?_, ?_, ?_⟩ <;> simp [Merge, hck]
  · have hnd : p.Name ≠ DefaultTagName := by
      rw [hn]
      decide
    have hck : checkTagSet [p] = some "Invalid value for gravwell tag" := by
      unfold checkTagSet
      rw [if_neg (by simp)]
      simp [List.findSome?, pairBad, hnd, hn, hv,
        show ¬(GravwellTagName = DefaultTagName) by decide]
    refine ⟨?_, ?_, ?_⟩ <;> simp [Merge, hck]
  · by_cases hg : p.Name = GravwellTagName
    · have hvg : p.Value ≠ GravwellTagId := by
        rw [hv]
        decide
      have hck : checkTagSet [p] = some "Invalid value for gravwell tag" := by
        unfold checkTagSet
        rw [if_neg (by simp)]
        simp [List.findSome?, pairBad, hn, hg, hvg,
          show ¬(GravwellTagName = DefaultTagName) by decide]
      refine ⟨?_, ?_, ?_⟩ <;> simp [Merge, hck]
    · have hck : checkTagSet [p] = none := by
        unfold checkTagSet
        rw [if_neg (by simp)]
        simp [List.findSome?, pairBad, hn, hg]
      have hkk : lookupK tm.tagKeys p.Value = some DefaultTagName := by
        rw [hv]
        exact hd2
      have hne : ¬(DefaultTagName = p.Name) := fun hc => hn hc.symm
      refine ⟨?_, ?_, ?_⟩ <;> simp [Merge, mergeLoop, mergeStep, hck, ha, hkk, hne]
  · by_cases hg : p.Name = DefaultTagName
    · have hvg : p.Value ≠ DefaultTagId := by
        rw [hv]
        decide
      have hck : checkTagSet [p] = some "Invalid value for default tag" := by
        unfold checkTagSet
        rw [if_neg (by simp)]
        simp [List.findSome?, pairBad, hg, hvg]
      refine ⟨?_, ?_, ?_⟩ <;> simp [Merge, hck]
    · have hck : checkTagSet [p] = none := by
        unfold checkTagSet
        rw [if_neg (by simp)]
        simp [List.findSome?, pairBad, hn, hg]
      have hkk : lookupK tm.tagKeys p.Value = some GravwellTagName := by
        rw [hv]
        exact hg2
      have hne : ¬(GravwellTagName = p.Name) := fun hc => hn hc.symm
      refine ⟨?_, ?_, ?_⟩ <;> simp [Merge, mergeLoop, mergeStep, hck, ha, hkk, hne]

end TagsConflictLemmas

/-- Claim C6: the fresh tag manager answers `GetTag` with the reserved ids;
after every successful `ResetOverride(set)` the reserved lookups still hold,
the file is rewritten with the two reserved pairs first followed by exactly
the entries of `set` whose id is not reserved (in order); and merging a
pair that conflicts with a reserved mapping fails without mutating the tag
set. -/
theorem tagman_reserved_integrity (tm : Tags.TagMan) (s : List Tags.TagPair)
    (p : Tags.TagPair) (ha : tm.active = true) (hres : Tags.ReservedOk tm)
    (hcon : Tags.ConflictsReserved p)
    (hok : (Tags.ResetOverride tm s).2 = none) :
    (Tags.GetTag Tags.freshTagMan "default" = .ok Tags.DefaultTagId ∧
      Tags.GetTag Tags.freshTagMan "gravwell" = .ok Tags.GravwellTagId) ∧
    (Tags.GetTag (Tags.ResetOverride tm s).1 "default" = .ok Tags.DefaultTagId ∧
      Tags.GetTag (Tags.ResetOverride tm s).1 "gravwell" = .ok Tags.GravwellTagId) ∧
    (Tags.ResetOverride tm s).1.fileLines =
      (Tags.DefaultTagName, Tags.DefaultTagId) ::
      (Tags.GravwellTagName, Tags.GravwellTagId) ::
      (s.filter (fun q => !(q.Value == Tags.DefaultTagId ||
          q.Value == Tags.GravwellTagId))).map (fun q => (q.Name, q.Value)) ∧
    ((Tags.Merge tm [p]).1 = tm ∧ (Tags.Merge tm [p]).2.1 = false ∧
      (Tags.Merge tm [p]).2.2 ≠ none) := by
  rcases hck : Tags.checkTagSet s with _ | e
  case some =>
    exfalso
    unfold Tags.ResetOverride at hok
    rw [hck] at hok
    exact Option.noConfusion hok
  case none =>
  have hpairs : ∀ q ∈ s, Tags.pairBad q = none := by
    unfold Tags.checkTagSet at hck
    by_cases hl : s.length > 0xffff
    · rw [if_pos hl] at hck
      exact absurd hck (by simp)
    · rw [if_neg hl] at hck
      exact List.findSome?_eq_none_iff.mp hck
  have hres1 : (Tags.ResetOverride tm s).1 =
      Tags.resetLoop ⟨Tags.insertK (Tags.insertK [] Tags.DefaultTagId
          Tags.DefaultTagName) Tags.GravwellTagId Tags.GravwellTagName,
        Tags.insertS (Tags.insertS [] Tags.DefaultTagName Tags.DefaultTagId)
          Tags.GravwellTagName Tags.GravwellTagId,
        [(Tags.DefaultTagName, Tags.DefaultTagId),
          (Tags.GravwellTagName, Tags.GravwellTagId)], tm.active⟩ s := by
    unfold Tags.ResetOverride
    rw [hck, ha]
    simp
  obtain ⟨f1, f2, f3, f4⟩ := resetLoop_facts s
    ⟨Tags.insertK (Tags.insertK [] Tags.DefaultTagId Tags.DefaultTagName)
        Tags.GravwellTagId Tags.GravwellTagName,
      Tags.insertS (Tags.insertS [] Tags.DefaultTagName Tags.DefaultTagId)
        Tags.GravwellTagName Tags.GravwellTagId,
      [(Tags.DefaultTagName, Tags.DefaultTagId),
        (Tags.GravwellTagName, Tags.GravwellTagId)], tm.active⟩ hpairs
  have hactive : (Tags.ResetOverride tm s).1.active = true := by
    rw [hres1, f1, ha]
  have hlookd : Tags.lookupS (Tags.ResetOverride tm s).1.tags
      Tags.DefaultTagName = some Tags.DefaultTagId := by
    rw [hres1]
    exact f2 (show Tags.lookupS (Tags.insertS (Tags.insertS []
      Tags.DefaultTagName Tags.DefaultTagId) Tags.GravwellTagName
      Tags.GravwellTagId) Tags.DefaultTagName = some Tags.DefaultTagId by decide)
  have hlookg : Tags.lookupS (Tags.ResetOverride tm s).1.tags
      Tags.GravwellTagName = some Tags.GravwellTagId := by
    rw [hres1]
    exact f3 (show Tags.lookupS (Tags.insertS (Tags.insertS []
      Tags.DefaultTagName Tags.DefaultTagId) Tags.GravwellTagName
      Tags.GravwellTagId) Tags.GravwellTagName = some Tags.GravwellTagId by decide)
  refine ⟨⟨rfl, rfl⟩, ⟨?_, ?_⟩, ?_, merge_conflict tm p ha hres hcon⟩
  · unfold Tags.GetTag
    rw [hactive]
    have htrim : Tags.trimSpace "default" = Tags.DefaultTagName := rfl
    rw [htrim, hlookd]
    rfl
  · unfold Tags.GetTag
    rw [hactive]
    have htrim : Tags.trimSpace "gravwell" = Tags.GravwellTagName := rfl
    rw [htrim, hlookg]
    rfl
  · rw [hres1, f4]
    rfl

/-- Witness for `tagman_reserved_integrity`: the fresh manager, the set
`[(a, 5), (b, 0)]` (whose second entry carries a reserved id and is
dropped), and the conflicting pair `(x, 0)`. -/
theorem tagman_reserved_integrity_witness :
    (Tags.GetTag Tags.freshTagMan "default" = .ok Tags.DefaultTagId ∧
      Tags.GetTag Tags.freshTagMan "gravwell" = .ok Tags.GravwellTagId) ∧
    (Tags.GetTag (Tags.ResetOverride Tags.freshTagMan
        [⟨"a", 5⟩, ⟨"b", 0⟩]).1 "default" = .ok Tags.DefaultTagId ∧
      Tags.GetTag (Tags.ResetOverride Tags.freshTagMan
        [⟨"a", 5⟩, ⟨"b", 0⟩]).1 "gravwell" = .ok Tags.GravwellTagId) ∧
    (Tags.ResetOverride Tags.freshTagMan [⟨"a", 5⟩, ⟨"b", 0⟩]).1.fileLines =
      (Tags.DefaultTagName, Tags.DefaultTagId) ::
      (Tags.GravwellTagName, Tags.GravwellTagId) ::
      (([⟨"a", 5⟩, ⟨"b", 0⟩] : List Tags.TagPair).filter
        (fun q => !(q.Value == Tags.DefaultTagId ||
          q.Value == Tags.GravwellTagId))).map (fun q => (q.Name, q.Value)) ∧
    ((Tags.Merge Tags.freshTagMan [⟨"x", 0⟩]).1 = Tags.freshTagMan ∧
      (Tags.Merge Tags.freshTagMan [⟨"x", 0⟩]).2.1 = false ∧
      (Tags.Merge Tags.freshTagMan [⟨"x", 0⟩]).2.2 ≠ none) :=
  tagman_reserved_integrity Tags.freshTagMan [⟨"a", 5⟩, ⟨"b", 0⟩] ⟨"x", 0⟩
    rfl (by decide) (by decide) rfl

namespace Filestore

/-- `UploadID` from the `util` package (the indexer UUID kept as its
string form). -/
structure UploadID where
  CID : Nat
  IdxUUID : String
  Well : String
  Shard : String
deriving DecidableEq

/-- `UploadTracker.EnterUpload`: claim the upload id, or fail when an
upload with that id is already active. -/
def enterUpload (tr : List UploadID) (uid : UploadID) :
    List UploadID × Option String :=
  if uid ∈ tr then (tr, some "Shard upload already in progress")
  else (uid :: tr, none)

/-- `UploadTracker.ExitUpload`: release the upload id, or fail when it is
not active. -/
def exitUpload (tr : List UploadID) (uid : UploadID) :
    List UploadID × Option String :=
  if uid ∈ tr then (tr.erase uid, none)
  else (tr, some "Shard upload not in progress")

/-- The collision-suffix loop of `filestore.UnpackShard`:
`for i := 1; i < 10000; i++ { if !exists(shardDir) break; shardDir = base.i }`.
`ex` is the directory-existence predicate (a `Stat` error other than
`ErrNotExist` counts as existing, as in the code); the fuel counts the
remaining iterations. -/
def pickLoop (ex : String → Bool) (base : String) : Nat → String → Nat → String
  | _, cur, 0 => cur
  | i, cur, fuel + 1 =>
    if ex cur = false then cur
    else pickLoop ex base (i + 1) (base ++ "." ++ toString i) fuel

/-- The shard directory `UnpackShard` settles on: the loop starting at
`i = 1` on the unsuffixed name, running while `i < 10000`. -/
def pickShardDir (ex : String → Bool) (base : String) : String :=
  pickLoop ex base 1 base 9999

/-- Outcomes of the effectful calls inside `filestore.UnpackShard`:
the filesystem's directory-existence predicate, whether `os.MkdirAll`
succeeds, whether the reader handed to `NewUnpacker` is nil (its only
failure mode), and the outcome of `Unpacker.Unpack` (stream, codec and
handler errors combined). -/
structure UnpackEnv where
  dirExists : String → Bool
  mkdirOk : Bool
  rdrNil : Bool
  unpackErr : Option String

/-- Observable result of `filestore.UnpackShard`: the returned error, the
final upload-tracker contents, the directories removed by `os.RemoveAll`,
the directory newly created by `MkdirAll` (none when the target already
existed or `MkdirAll` failed), and the target directory selected. -/
structure UnpackOut where
  err : Option String
  tracker : List UploadID
  removedDirs : List String
  createdDir : Option String
  targetDir : String

/-- `filestore.UnpackShard` from the filestore package, as a function of
the call outcomes: enter the tracker, pick the (possibly suffixed) target
directory, `MkdirAll` it, unpack, removing the target directory and
exiting the tracker on the error paths, and exiting the tracker on
success. -/
def UnpackShard (env : UnpackEnv) (tr : List UploadID) (basedir : String)
    (uid : UploadID) : UnpackOut :=
  match enterUpload tr uid with
  | (_, some e) => ⟨some e, tr, [], none, ""⟩
  | (tr1, none) =>
    let indexerDir := basedir ++ "/" ++ toString uid.CID ++ "/" ++ uid.IdxUUID
    let sdir := pickShardDir env.dirExists
      (indexerDir ++ "/" ++ uid.Well ++ "/" ++ uid.Shard)
    let created := if env.dirExists sdir then none else some sdir
    if env.mkdirOk = false then
      ⟨some "mkdir failed", (exitUpload tr1 uid).1, [], none, sdir⟩
    else if env.rdrNil then
      ⟨some "Invalid unpacker parameters", (exitUpload tr1 uid).1, [sdir],
        created, sdir⟩
    else
      match env.unpackErr with
      | some e => ⟨some e, (exitUpload tr1 uid).1, [sdir], created, sdir⟩
      | none => ⟨(exitUpload tr1 uid).2, (exitUpload tr1 uid).1, [], created, sdir⟩

/-- Outcomes of the effectful calls inside `filestore.PackShard`: whether
the shard directory is readable, and the combined error of the two-task
pack-and-copy pipeline (whose concurrency is not modelled; only the error
it settles on). -/
structure PackEnv where
  readableOk : Bool
  pipelineErr : Option String

/-- `filestore.PackShard`: enter the tracker, check the shard directory,
run the pipeline, and exit the tracker on every path (on the clean path
the returned error is the `ExitUpload` error). -/
def PackShard (env : PackEnv) (tr : List UploadID) (uid : UploadID) :
    Option String × List UploadID :=
  match enterUpload tr uid with
  | (_, some e) => (some e, tr)
  | (tr1, none) =>
    if env.readableOk = false then (some "not readable", (exitUpload tr1 uid).1)
    else
      match env.pipelineErr with
      | some e => (some e, (exitUpload tr1 uid).1)
      | none => ((exitUpload tr1 uid).2, (exitUpload tr1 uid).1)

/-- The cleanup obligation of claim C7: whenever `UnpackShard` created the
target shard directory and returned an error, that directory was
removed. -/
def dirCleanedUp (out : UnpackOut) : Bool :=
  match out.createdDir with
  | none => true
  | some d => out.err.isNone || out.removedDirs.contains d

end Filestore

/-- Claim C7: on every exit path of `UnpackShard` and `PackShard` the
upload tracker is restored to its initial contents (the entry entered at
the start is removed before the call returns; a failed `EnterUpload`
leaves the tracker untouched), and any target shard directory that was
created by a failing `UnpackShard` call is removed before the call
returns. -/
theorem unpack_cleanup_tracker_hygiene (env : Filestore.UnpackEnv)
    (penv : Filestore.PackEnv) (tr tr2 : List Filestore.UploadID)
    (basedir : String) (uid uid2 : Filestore.UploadID) :
    (Filestore.UnpackShard env tr basedir uid).tracker = tr ∧
    Filestore.dirCleanedUp (Filestore.UnpackShard env tr basedir uid) = true ∧
    (Filestore.PackShard penv tr2 uid2).2 = tr2 := by
  obtain ⟨dex, mk, rn, ue⟩ := env
  obtain ⟨rok, pe⟩ := penv
  refine ⟨?_, ?_, ?_⟩
  · by_cases hmem : uid ∈ tr
    · simp [Filestore.UnpackShard, Filestore.enterUpload, hmem]
    · cases mk <;> cases rn <;> rcases ue with _ | e <;>
        simp [Filestore.UnpackShard, Filestore.enterUpload, hmem,
          Filestore.exitUpload, List.erase_cons_head]
  · by_cases hmem : uid ∈ tr
    · simp [Filestore.UnpackShard, Filestore.enterUpload, hmem,
        Filestore.dirCleanedUp]
    · cases mk <;> cases rn <;> rcases ue with _ | e <;>
        by_cases hdx : dex (Filestore.pickShardDir dex
          (basedir ++ "/" ++ toString uid.CID ++ "/" ++ uid.IdxUUID ++ "/" ++
            uid.Well ++ "/" ++ uid.Shard)) <;>
        simp [Filestore.UnpackShard, Filestore.enterUpload, hmem,
          Filestore.exitUpload, Filestore.dirCleanedUp, hdx]
  · by_cases hmem : uid2 ∈ tr2
    · simp [Filestore.PackShard, Filestore.enterUpload, hmem]
    · cases rok <;> rcases pe with _ | e <;>
        simp [Filestore.PackShard, Filestore.enterUpload, hmem,
          Filestore.exitUpload, List.erase_cons_head]

/-- When every probed directory exists, each loop iteration replaces the
candidate with the next suffixed name, and the loop runs out of fuel. -/
theorem pickLoop_saturated (ex : String → Bool) (base : String)
    (hex : ∀ s, ex s = true) :
    ∀ (fuel i : Nat) (cur : String),
    Filestore.pickLoop ex base i cur (fuel + 1) =
      base ++ "." ++ toString (i + fuel) := by
  intro fuel
  induction fuel with
  | zero =>
    intro i cur
    simp [Filestore.pickLoop, hex cur]
  | succ f ihf =>
    intro i cur
    rw [show Filestore.pickLoop ex base i cur (f + 1 + 1) =
        Filestore.pickLoop ex base (i + 1) (base ++ "." ++ toString i) (f + 1) by
      simp [Filestore.pickLoop, hex cur]]
    rw [ihf (i + 1) (base ++ "." ++ toString i)]
    congr 2
    omega

/-- On any entered upload, the target directory `UnpackShard` settles on
is the one picked by the collision-suffix loop. -/
theorem unpackShard_targetDir (env : Filestore.UnpackEnv)
    (tr : List Filestore.UploadID) (basedir : String)
    (uid : Filestore.UploadID) (h : uid ∉ tr) :
    (Filestore.UnpackShard env tr basedir uid).targetDir =
      Filestore.pickShardDir env.dirExists
        (basedir ++ "/" ++ toString uid.CID ++ "/" ++ uid.IdxUUID ++ "/" ++
          uid.Well ++ "/" ++ uid.Shard) := by
  obtain ⟨dex, mk, rn, ue⟩ := env
  cases mk <;> cases rn <;> rcases ue with _ | e <;>
    simp [Filestore.UnpackShard, Filestore.enterUpload, h]

/-- Claim C3 evaluation (code bug): when the shard directory and all its
suffixed variants already exist, `UnpackShard` does not fail — the loop
stops after setting the name `<base>.9999` (which it never even `Stat`s),
`MkdirAll` succeeds on the existing directory, and the upload proceeds to
unpack into it. -/
theorem collision_suffix_exhaustion_bug :
    Filestore.pickShardDir (fun _ => true) "r/1337/u/foo/769f2" =
      "r/1337/u/foo/769f2" ++ "." ++ toString 9999 ∧
    "r/1337/u/foo/769f2" ++ "." ++ toString 9999 = "r/1337/u/foo/769f2.9999" ∧
    (fun (_ : String) => true) "r/1337/u/foo/769f2.9999" = true ∧
    (Filestore.UnpackShard ⟨fun _ => true, true, false, none⟩ [] "r"
      ⟨1337, "u", "foo", "769f2"⟩).err = none ∧
    (Filestore.UnpackShard ⟨fun _ => true, true, false, none⟩ [] "r"
      ⟨1337, "u", "foo", "769f2"⟩).targetDir = "r/1337/u/foo/769f2.9999" := by
  have hpick : Filestore.pickShardDir (fun _ => true) "r/1337/u/foo/769f2" =
      "r/1337/u/foo/769f2" ++ "." ++ toString 9999 := by
    unfold Filestore.pickShardDir
    rw [show (9999 : Nat) = 9998 + 1 from rfl,
      pickLoop_saturated (fun _ => true) "r/1337/u/foo/769f2" (fun _ => rfl)
        9998 1 "r/1337/u/foo/769f2"]
  refine ⟨hpick, by decide, rfl, rfl, ?_⟩
  rw [unpackShard_targetDir ⟨fun _ => true, true, false, none⟩ [] "r"
    ⟨1337, "u", "foo", "769f2"⟩ (by simp)]
  rw [show "r" ++ "/" ++ toString (Filestore.UploadID.mk 1337 "u" "foo" "769f2").CID ++
      "/" ++ (Filestore.UploadID.mk 1337 "u" "foo" "769f2").IdxUUID ++ "/" ++
      (Filestore.UploadID.mk 1337 "u" "foo" "769f2").Well ++ "/" ++
      (Filestore.UploadID.mk 1337 "u" "foo" "769f2").Shard = "r/1337/u/foo/769f2"
    by decide]
  rw [hpick]
  decide

namespace Filestore

/-- `util.Timeframe`: a pair of instants, modelled in unix seconds as
integers (`time.Time` comparisons `Before`/`After`/`Equal` are the
integer order). -/
structure Timeframe where
  Start : Int
  End : Int

/-- One entry of the well-directory listing, reduced to what the loop can
observe: its name and whether it is a directory. -/
structure DirEntry where
  name : String
  isDir : Bool

/-- `filestore.GetShardsInTimeframe` over the listing of the well
directory: names whose parse fails are skipped, and a shard is appended
when any of the four switch cases holds.  Note the loop never consults
`isDir`. -/
def GetShardsInTimeframe (tf : Timeframe) : List DirEntry → List String
  | [] => []
  | ent :: rest =>
    match ShardUtil.ShardNameToDateRange ent.name with
    | none => GetShardsInTimeframe tf rest
    | some (s, e) =>
      if (s < tf.Start ∧ tf.Start < e) ∨ (s < tf.End ∧ tf.End < e) ∨
          (s = tf.End ∨ s = tf.Start ∨ e = tf.End ∨ e = tf.Start) ∨
          (tf.Start < s ∧ tf.End > e)
      then ent.name :: GetShardsInTimeframe tf rest
      else GetShardsInTimeframe tf rest

/-- The overlap predicate as the claim words it: the name parses to a
window `[s, e)` and the query start lies strictly inside, or the query
end lies strictly inside, or an endpoint coincides, or the query strictly
contains the window. -/
def overlapsClaim (tf : Timeframe) (nm : String) : Bool :=
  match ShardUtil.ShardNameToDateRange nm with
  | none => false
  | some (s, e) =>
    decide ((s < tf.Start ∧ tf.Start < e) ∨ (s < tf.End ∧ tf.End < e) ∨
      (s = tf.Start ∨ s = tf.End ∨ e = tf.Start ∨ e = tf.End) ∨
      (tf.Start < s ∧ tf.End > e))

/-- Claim-side `GetShardsInTimeframe` (as frozen): additionally restricts
the result to entries that are directories. -/
def GetShardsClaim (tf : Timeframe) (l : List DirEntry) : List String :=
  (l.filter (fun ent => ent.isDir && overlapsClaim tf ent.name)).map
    (fun ent => ent.name)

end Filestore

/-- Claim C4 (amended): `GetShardsInTimeframe` returns exactly the names
of well-directory entries — whether or not they are directories — whose
name parses as a hex shard name and whose window overlaps the query
window under the claimed predicate; names that fail to parse are never
returned. -/
theorem timeframe_query_matches_overlap (tf : Filestore.Timeframe)
    (l : List Filestore.DirEntry) :
    Filestore.GetShardsInTimeframe tf l =
      (l.filter (fun ent => Filestore.overlapsClaim tf ent.name)).map
        (fun ent => ent.name) := by
  induction l with
  | nil => rfl
  | cons ent rest ih =>
    rcases hp : ShardUtil.ShardNameToDateRange ent.name with _ | se
    · rw [show Filestore.GetShardsInTimeframe tf (ent :: rest) =
          Filestore.GetShardsInTimeframe tf rest by
        simp [Filestore.GetShardsInTimeframe, hp]]
      simp only [List.filter_cons]
      rw [show Filestore.overlapsClaim tf ent.name = false by
        simp [Filestore.overlapsClaim, hp]]
      simp [ih]
    · obtain ⟨s, e⟩ := se
      by_cases hc : (s < tf.Start ∧ tf.Start < e) ∨ (s < tf.End ∧ tf.End < e) ∨
          (s = tf.End ∨ s = tf.Start ∨ e = tf.End ∨ e = tf.Start) ∨
          (tf.Start < s ∧ tf.End > e)
      · rw [show Filestore.GetShardsInTimeframe tf (ent :: rest) =
            ent.name :: Filestore.GetShardsInTimeframe tf rest by
          simp [Filestore.GetShardsInTimeframe, hp, hc]]
        simp only [List.filter_cons]
        rw [show Filestore.overlapsClaim tf ent.name = true by
          simp only [Filestore.overlapsClaim, hp, decide_eq_true_eq]
          tauto]
        simp [ih]
      · rw [show Filestore.GetShardsInTimeframe tf (ent :: rest) =
            Filestore.GetShardsInTimeframe tf rest by
          simp [Filestore.GetShardsInTimeframe, hp, hc]]
        simp only [List.filter_cons]
        rw [show Filestore.overlapsClaim tf ent.name = false by
          simp only [Filestore.overlapsClaim, hp, decide_eq_false_iff_not]
          tauto]
        simp [ih]

/-- Counterexample to claim C4 as frozen: a well-directory listing whose
single entry is a regular file named `0` (parsing to the window
`[0, 2^17)`, overlapping the query `[1, 2]`).  The code returns it; a
directory-filtering version would not. -/
theorem timeframe_query_counterexample :
    Filestore.GetShardsInTimeframe ⟨1, 2⟩ [⟨"0", false⟩] = ["0"] ∧
    Filestore.GetShardsClaim ⟨1, 2⟩ [⟨"0", false⟩] = [] :=
  ⟨by decide, by decide⟩

namespace TagsRegistry

/-- One registry entry of `pkg/tags/manager.go`: the `(customer id,
indexer uuid)` key abstracted to a `Nat`, the refcount (`handles`), and
whether the underlying `TagMan.Close` would succeed. -/
structure RegEntry where
  key : Nat
  handles : Nat
  closeOk : Bool
deriving DecidableEq

/-- The process-wide registry state: `tagSets` is `none` once the map has
been set to nil. -/
structure Registry where
  tagSets : Option (List RegEntry)
deriving DecidableEq

/-- Message of `ErrManagerClosed`. -/
def ErrManagerClosed : String := "Manager is closed"

/-- Message of `ErrOpenHandles` (sic, as in the source). -/
def ErrOpenHandles : String := "tag manager has open handles is closed"

/-- Message of `ErrNoActiveHandles`. -/
def ErrNoActiveHandles : String := "tag manager is not active"

/-- Error of a failing `TagMan.Close` (abstracted). -/
def ErrCloseFailed : String := "close failed"

/-- The iteration of `CloseTagSets` over the map entries: stop with
`ErrOpenHandles` at a nonzero refcount, stop with the close error when
`Close` fails (the entry is then neither closed nor deleted), otherwise
close the manager and delete the entry.  Returns the error and the keys
closed-and-deleted, in iteration order. -/
def closeLoop : List RegEntry → Option String × List Nat
  | [] => (none, [])
  | v :: rest =>
    if v.handles > 0 then (some ErrOpenHandles, [])
    else if v.closeOk = false then (some ErrCloseFailed, [])
    else
      let r := closeLoop rest
      (r.1, v.key :: r.2)

/-- `CloseTagSets` from `pkg/tags/manager.go`: run the loop when the map
is non-nil, then set `tagSets = nil` unconditionally — also when the loop
stopped with an error. -/
def CloseTagSets (r : Registry) : Option String × Registry × List Nat :=
  match r.tagSets with
  | none => (none, ⟨none⟩, [])
  | some l =>
    let res := closeLoop l
    (res.1, ⟨none⟩, res.2)

/-- Refcount bump of `GetTagMan` on an open map: an absent key (or one at
refcount zero) opens a fresh manager (`New` assumed to succeed) and takes
one handle; a present one takes one more handle. -/
def bump : List RegEntry → Nat → List RegEntry
  | [], k => [⟨k, 1, true⟩]
  | v :: rest, k =>
    if v.key = k then { v with handles := v.handles + 1 } :: rest
    else v :: bump rest k

/-- `GetTagMan` from `pkg/tags/manager.go`: fails with `ErrManagerClosed`
once `tagSets` is nil, otherwise increments the refcount. -/
def GetTagMan (r : Registry) (k : Nat) : Option String × Registry :=
  match r.tagSets with
  | none => (some ErrManagerClosed, r)
  | some l => (none, ⟨some (bump l k)⟩)

/-- Refcount drop of `ReleaseTagMan` on an open map: absent keys and zero
refcounts fail; a last handle closes the manager and deletes the entry
(a failing close keeps the entry); otherwise only the count drops. -/
def dropOne : List RegEntry → Nat → Option String × List RegEntry
  | [], _ => (some ErrNoActiveHandles, [])
  | v :: rest, k =>
    if v.key = k then
      if v.handles = 0 then (some ErrNoActiveHandles, v :: rest)
      else if v.handles = 1 then
        if v.closeOk then (none, rest) else (some ErrCloseFailed, v :: rest)
      else (none, { v with handles := v.handles - 1 } :: rest)
    else
      let r := dropOne rest k
      (r.1, v :: r.2)

/-- `ReleaseTagMan` from `pkg/tags/manager.go`: fails with
`ErrManagerClosed` once `tagSets` is nil, otherwise drops one handle. -/
def ReleaseTagMan (r : Registry) (k : Nat) : Option String × Registry :=
  match r.tagSets with
  | none => (some ErrManagerClosed, r)
  | some l =>
    let res := dropOne l k
    (res.1, ⟨some res.2⟩)

end TagsRegistry

/-- The `CloseTagSets` loop on a map whose first bad entry follows a
clean prefix: it stops at the bad entry with the corresponding error,
having closed and deleted exactly the prefix. -/
theorem closeLoop_stops (fl : TagsRegistry.RegEntry)
    (rest : List TagsRegistry.RegEntry)
    (hfl : fl.handles > 0 ∨ fl.closeOk = false) :
    ∀ pre : List TagsRegistry.RegEntry,
    (∀ v ∈ pre, v.handles = 0 ∧ v.closeOk = true) →
    TagsRegistry.closeLoop (pre ++ fl :: rest) =
      (some (if fl.handles > 0 then TagsRegistry.ErrOpenHandles
        else TagsRegistry.ErrCloseFailed), pre.map (fun v => v.key)) := by
  intro pre
  induction pre with
  | nil =>
    intro _
    rcases hfl with hfl | hfl
    · simp [TagsRegistry.closeLoop, hfl]
    · by_cases hh : fl.handles > 0
      · simp [TagsRegistry.closeLoop, hh]
      · simp [TagsRegistry.closeLoop, hh, hfl]
  | cons v pre ih =>
    intro hpre
    obtain ⟨hv0, hvc⟩ := hpre v (by simp)
    rw [show (v :: pre) ++ fl :: rest = v :: (pre ++ fl :: rest) by simp]
    rw [show TagsRegistry.closeLoop (v :: (pre ++ fl :: rest)) =
        ((TagsRegistry.closeLoop (pre ++ fl :: rest)).1,
          v.key :: (TagsRegistry.closeLoop (pre ++ fl :: rest)).2) by
      simp [TagsRegistry.closeLoop, hv0, hvc]]
    rw [ih (fun q hq => hpre q (by simp [hq]))]
    simp

/-- Claim C9: when `CloseTagSets` stops with an error — `ErrOpenHandles`
at a nonzero refcount, or a failing `Close` — the registry map is still
set to nil, so every subsequent `GetTagMan` or `ReleaseTagMan` fails with
`ErrManagerClosed`; exactly the entries iterated before the failing one
were closed and deleted (the failing entry and the rest, including any
managers with open handles, were never closed). -/
theorem registry_close_not_atomic (fl : TagsRegistry.RegEntry)
    (pre rest : List TagsRegistry.RegEntry) (k : Nat)
    (hpre : ∀ v ∈ pre, v.handles = 0 ∧ v.closeOk = true)
    (hfl : fl.handles > 0 ∨ fl.closeOk = false) :
    (TagsRegistry.CloseTagSets ⟨some (pre ++ fl :: rest)⟩).1 =
      some (if fl.handles > 0 then TagsRegistry.ErrOpenHandles
        else TagsRegistry.ErrCloseFailed) ∧
    (TagsRegistry.CloseTagSets ⟨some (pre ++ fl :: rest)⟩).2.1 = ⟨none⟩ ∧
    (TagsRegistry.CloseTagSets ⟨some (pre ++ fl :: rest)⟩).2.2 =
      pre.map (fun v => v.key) ∧
    (TagsRegistry.GetTagMan
      (TagsRegistry.CloseTagSets ⟨some (pre ++ fl :: rest)⟩).2.1 k).1 =
      some TagsRegistry.ErrManagerClosed ∧
    (TagsRegistry.ReleaseTagMan
      (TagsRegistry.CloseTagSets ⟨some (pre ++ fl :: rest)⟩).2.1 k).1 =
      some TagsRegistry.ErrManagerClosed := by
  have hcl := closeLoop_stops fl rest hfl pre hpre
  refine ⟨?_, rfl, ?_, rfl, rfl⟩
  · show (TagsRegistry.closeLoop (pre ++ fl :: rest)).1 = _
    rw [hcl]
  · show (TagsRegistry.closeLoop (pre ++ fl :: rest)).2 = _
    rw [hcl]

/-- Witness for `registry_close_not_atomic`: a clean entry, then one with
three open handles, then another clean entry. -/
theorem registry_close_not_atomic_witness :
    (TagsRegistry.CloseTagSets
      ⟨some ([⟨1, 0, true⟩] ++ ⟨2, 3, true⟩ :: [⟨4, 0, true⟩])⟩).1 =
      some (if (⟨2, 3, true⟩ : TagsRegistry.RegEntry).handles > 0
        then TagsRegistry.ErrOpenHandles else TagsRegistry.ErrCloseFailed) ∧
    (TagsRegistry.CloseTagSets
      ⟨some ([⟨1, 0, true⟩] ++ ⟨2, 3, true⟩ :: [⟨4, 0, true⟩])⟩).2.1 = ⟨none⟩ ∧
    (TagsRegistry.CloseTagSets
      ⟨some ([⟨1, 0, true⟩] ++ ⟨2, 3, true⟩ :: [⟨4, 0, true⟩])⟩).2.2 =
      ([⟨1, 0, true⟩] : List TagsRegistry.RegEntry).map (fun v => v.key) ∧
    (TagsRegistry.GetTagMan (TagsRegistry.CloseTagSets
      ⟨some ([⟨1, 0, true⟩] ++ ⟨2, 3, true⟩ :: [⟨4, 0, true⟩])⟩).2.1 7).1 =
      some TagsRegistry.ErrManagerClosed ∧
    (TagsRegistry.ReleaseTagMan (TagsRegistry.CloseTagSets
      ⟨some ([⟨1, 0, true⟩] ++ ⟨2, 3, true⟩ :: [⟨4, 0, true⟩])⟩).2.1 7).1 =
      some TagsRegistry.ErrManagerClosed :=
  registry_close_not_atomic ⟨2, 3, true⟩ [⟨1, 0, true⟩] [⟨4, 0, true⟩] 7
    (by decide) (by decide)
